import Mathlib

/-!
Verification of the revpipyload daemon against its natural-language
specification.  The Python sources are shallowly embedded: pure logic becomes
Lean functions, the per-connection PLC-Server worker loop becomes an explicit
step function over a connection-state record, and fallible operations return
Option.  Machine bytes are modelled as Nat values, strings as Lean strings or
character lists.
-/

set_option maxHeartbeats 1000000

/-! ## ACL manager (shared/ipaclmanager.py)

The Python class IpAclManager keeps three dictionaries: dict_acl mapping an
IP pattern string to its level, dict_regex mapping the pattern to its
compiled regex (derived purely from the pattern, so it is not stored
separately here), and dict_knownips memoizing resolved lookups.  Python dicts
are embedded as insertion-ordered association lists with unique keys. -/

/-- Python code-point string comparison on character lists, as used by the
built-in sorted() over the ACL dictionary keys in get_acllevel. -/
def pyStrLt : List Char → List Char → Bool
  | [], [] => false
  | [], _ :: _ => true
  | _ :: _, [] => false
  | a :: as, b :: bs =>
    if a.toNat < b.toNat then true
    else if b.toNat < a.toNat then false
    else pyStrLt as bs

/-- Insert a string into a list kept in descending pyStrLt order. -/
def insertDesc (x : String) : List String → List String
  | [] => [x]
  | y :: ys => if pyStrLt x.toList y.toList then y :: insertDesc x ys else x :: y :: ys

/-- Descending sort of dictionary keys: sorted(keys, reverse=True). -/
def sortDesc : List String → List String
  | [] => []
  | x :: xs => insertDesc x (sortDesc xs)

/-- Full match of an ACL pattern against an IP string.  The Python source
compiles each pattern via ip.replace(".", "\\.").replace("*", "\\d{1,3}") and
applies refullmatch, so a literal character must match itself and each '*'
matches one to three decimal digits. -/
def patMatch : List Char → List Char → Bool
  | [], s => s.isEmpty
  | c :: ps, s =>
    if c = '*' then
      match s with
      | [] => false
      | d1 :: s1 =>
        d1.isDigit && (patMatch ps s1 ||
          (match s1 with
           | [] => false
           | d2 :: s2 =>
             d2.isDigit && (patMatch ps s2 ||
               (match s2 with
                | [] => false
                | d3 :: s3 => d3.isDigit && patMatch ps s3))))
    else
      match s with
      | [] => false
      | c2 :: s2 => c = c2 && patMatch ps s2

/-- State of an IpAclManager instance. -/
structure IpAclManager where
  minlevel : Nat
  maxlevel : Nat
  dict_acl : List (String × Int)
  dict_knownips : List (String × Int)

/-- Python dictionary lookup on an association list with unique keys. -/
def alookup (k : String) : List (String × Int) → Option Int
  | [] => none
  | (k2, v) :: rest => if k2 = k then some v else alookup k rest

/-- Python dictionary assignment d[k] = v: an existing key keeps its position
and gets the new value, a new key is appended at the end. -/
def dictInsertStr (k : String) (v : Int) : List (String × Int) → List (String × Int)
  | [] => [(k, v)]
  | (k2, v2) :: rest =>
    if k2 = k then (k2, v) :: rest else (k2, v2) :: dictInsertStr k v rest

/-- Walk the descending-sorted pattern keys and resolve the first full match
against dict_acl, as the for loop of get_acllevel does. -/
def findAclMatch (dict : List (String × Int)) (ip : String) : List String → Option Int
  | [] => none
  | k :: ks =>
    if patMatch k.toList ip.toList then alookup k dict else findAclMatch dict ip ks

/-- IpAclManager.get_acllevel: a memoized IP is answered from dict_knownips;
otherwise the patterns are tried in descending code-point order and the first
full match is memoized and returned; with no match the result is -1 (not
memoized).  The mutated manager is returned alongside the level. -/
def get_acllevel (m : IpAclManager) (ip : String) : Int × IpAclManager :=
  match alookup ip m.dict_knownips with
  | some lv => (lv, m)
  | none =>
    match findAclMatch m.dict_acl ip (sortDesc (m.dict_acl.map Prod.fst)) with
    | some lv => (lv, { m with dict_knownips := m.dict_knownips ++ [(ip, lv)] })
    | none => (-1, m)

/-! ### The ACL grammar

loadacl and the acl property setter validate the raw string against the regex
(([\d*]{1,3}\.){3}[\d*]{1,3},[MIN-MAX] ?)* with re.fullmatch semantics.  The
regex is deterministic over its alphabet (octet characters, '.', ',' and ' '
are mutually disjoint), so greedy maximal-munch parsing decides acceptance. -/

/-- Characters allowed inside an octet of an ACL pattern: the class [\d*]. -/
def isAclChar (c : Char) : Bool := c.isDigit || c = '*'

/-- Consume one octet, [\d*]{1,3}, with maximal munch; returns the rest. -/
def parseOctet : List Char → Option (List Char)
  | [] => none
  | c1 :: r1 =>
    if isAclChar c1 then
      match r1 with
      | [] => some []
      | c2 :: r2 =>
        if isAclChar c2 then
          match r2 with
          | [] => some []
          | c3 :: r3 => if isAclChar c3 then some r3 else some r2
        else some r1
    else none

/-- Consume one expected literal character. -/
def expectChar (c : Char) : List Char → Option (List Char)
  | [] => none
  | x :: r => if x = c then some r else none

/-- Consume one level digit: the character class [MIN-MAX] of the regex. -/
def parseLevel (minl maxl : Nat) : List Char → Option (List Char)
  | [] => none
  | c :: r9 =>
    if c.isDigit && decide (minl ≤ c.toNat - 48) && decide (c.toNat - 48 ≤ maxl) then
      some r9
    else none

/-- Sequencing of two consuming parsers. -/
def pseq (p q : List Char → Option (List Char)) (s : List Char) : Option (List Char) :=
  (p s).bind q

/-- A parser that consumes at least one character whenever it succeeds. -/
def Shrinks (p : List Char → Option (List Char)) : Prop :=
  ∀ s r, p s = some r → r.length < s.length

/-- Consume one full entry IP,LEVEL of the ACL regex: four octets separated
by dots, a comma and one level digit inside the class [MIN-MAX]. -/
def parseEntry (minl maxl : Nat) : List Char → Option (List Char) :=
  pseq parseOctet (pseq (expectChar '.')
    (pseq parseOctet (pseq (expectChar '.')
      (pseq parseOctet (pseq (expectChar '.')
        (pseq parseOctet (pseq (expectChar ',') (parseLevel minl maxl))))))))

theorem parseOctet_shrinks : Shrinks parseOctet := by
  intro s r h
  unfold parseOctet at h
  repeat' split at h
  all_goals first
    | (cases h; simp only [List.length_cons, List.length_nil]; omega)
    | simp at h

theorem expectChar_shrinks (c : Char) : Shrinks (expectChar c) := by
  intro s r h
  unfold expectChar at h
  repeat' split at h
  all_goals first
    | (cases h; simp only [List.length_cons, List.length_nil]; omega)
    | simp at h

theorem parseLevel_shrinks (minl maxl : Nat) : Shrinks (parseLevel minl maxl) := by
  intro s r h
  unfold parseLevel at h
  repeat' split at h
  all_goals first
    | (cases h; simp only [List.length_cons, List.length_nil]; omega)
    | simp at h

theorem pseq_shrinks {p q : List Char → Option (List Char)}
    (hp : Shrinks p) (hq : Shrinks q) : Shrinks (pseq p q) := by
  intro s r h
  simp only [pseq] at h
  cases hps : p s with
  | none => rw [hps] at h; simp at h
  | some mid =>
    rw [hps] at h
    exact Nat.lt_trans (hq mid r h) (hp s mid hps)

theorem parseEntry_shrinks (minl maxl : Nat) : Shrinks (parseEntry minl maxl) := by
  unfold parseEntry
  exact pseq_shrinks parseOctet_shrinks (pseq_shrinks (expectChar_shrinks '.')
    (pseq_shrinks parseOctet_shrinks (pseq_shrinks (expectChar_shrinks '.')
      (pseq_shrinks parseOctet_shrinks (pseq_shrinks (expectChar_shrinks '.')
        (pseq_shrinks parseOctet_shrinks (pseq_shrinks (expectChar_shrinks ',')
          (parseLevel_shrinks minl maxl))))))))

/-- Acceptance of the full ACL regex (([\d*]{1,3}\.){3}[\d*]{1,3},[M-N] ?)*
with fullmatch semantics: a sequence of entries, each optionally followed by
a single space. -/
def aclOk (minl maxl : Nat) (s : List Char) : Bool :=
  if s.isEmpty then true
  else
    match h : parseEntry minl maxl s with
    | none => false
    | some [] => true
    | some (c :: r) =>
      if c = ' ' then r.isEmpty || aclOk minl maxl r
      else aclOk minl maxl (c :: r)
termination_by s.length
decreasing_by
  · have := parseEntry_shrinks minl maxl s _ h; simp only [List.length_cons] at this; omega
  · have := parseEntry_shrinks minl maxl s _ h; exact this

/-- Python whitespace as recognized by str.split() and str.strip() for the
characters that can occur here. -/
def isPyWs (c : Char) : Bool :=
  c = ' ' || c = '\t' || c = '\n' || c = '\r' || c = '\x0b' || c = '\x0c'

/-- Python str.strip(). -/
def stripChars (s : List Char) : List Char :=
  ((s.dropWhile isPyWs).reverse.dropWhile isPyWs).reverse

/-- Take a maximal run of non-whitespace characters; returns it and the rest. -/
def takeTok : List Char → List Char × List Char
  | [] => ([], [])
  | c :: r =>
    if isPyWs c then ([], c :: r)
    else
      let p := takeTok r
      (c :: p.1, p.2)

theorem takeTok_rest_le (l : List Char) : (takeTok l).2.length ≤ l.length := by
  induction l with
  | nil => simp [takeTok]
  | cons c r ih =>
    simp only [takeTok]
    by_cases h : isPyWs c = true
    · simp [h]
    · simp only [h]; simpa using Nat.le_succ_of_le ih

/-- Python str.split() with no argument: split on whitespace runs, dropping
empty fields. -/
def pySplit (s : List Char) : List (List Char) :=
  match s with
  | [] => []
  | c :: r =>
    if isPyWs c then pySplit r
    else
      have hle : (takeTok r).2.length ≤ r.length := takeTok_rest_le r
      (c :: (takeTok r).1) :: pySplit (takeTok r).2
termination_by s.length
decreasing_by
  · simp only [List.length_cons]; omega
  · simp only [List.length_cons]; omega

/-- Python token.split(",", 1): everything before the first comma and
everything after it; none when the token has no comma (tuple unpacking in the
source would raise there). -/
def pySplitComma1 : List Char → Option (List Char × List Char)
  | [] => none
  | c :: r =>
    if c = ',' then some ([], r)
    else
      match pySplitComma1 r with
      | none => none
      | some (a, b) => some (c :: a, b)

/-- Value of a decimal digit string. -/
def digitsToNat (s : List Char) : Nat :=
  s.foldl (fun n c => n * 10 + (c.toNat - 48)) 0

/-- Python int(str) on the strings reachable here: optional sign followed by
one or more decimal digits, with surrounding whitespace stripped; anything
else raises ValueError (none). -/
def pyInt (s : List Char) : Option Int :=
  let t := stripChars s
  match t with
  | [] => none
  | '+' :: r => if r ≠ [] ∧ r.all Char.isDigit then some (digitsToNat r) else none
  | '-' :: r => if r ≠ [] ∧ r.all Char.isDigit then some (-(digitsToNat r : Int)) else none
  | _ => if t.all Char.isDigit then some (digitsToNat t) else none

/-- The token loop of IpAclManager.__set_acl: for each whitespace-separated
token, split at the first comma and store int(level) under the IP key. -/
def parseAclEntries (acc : List (String × Int)) : List (List Char) → Option (List (String × Int))
  | [] => some acc
  | t :: ts =>
    match pySplitComma1 t with
    | none => none
    | some (ip, lvl) =>
      match pyInt lvl with
      | none => none
      | some i => parseAclEntries (dictInsertStr (String.mk ip) i acc) ts

/-- IpAclManager.__set_acl: strip the value, validate it against the ACL
regex (ValueError, i.e. none, otherwise), then clear all three dictionaries
and refill dict_acl from the whitespace-separated tokens.  int() on a
malformed level substring also raises (none). -/
def set_acl (m : IpAclManager) (v : String) : Option IpAclManager :=
  let v' := stripChars v.toList
  if aclOk m.minlevel m.maxlevel v' then
    match parseAclEntries [] (pySplit v') with
    | some d => some { m with dict_acl := d, dict_knownips := [] }
    | none => none
  else none

/-- IpAclManager.loadacl: full-match the raw string against the ACL regex and
return False without touching any state on failure; otherwise delegate to
__set_acl and return True.  none models an escaping exception. -/
def loadacl (m : IpAclManager) (s : String) : Option (Bool × IpAclManager) :=
  if aclOk m.minlevel m.maxlevel s.toList then
    (set_acl m s).map (fun m' => (true, m'))
  else some (false, m)

/-! ## PLC-Server connection worker (picontrolserver.py, RevPiSlaveDev)

The worker thread loop of RevPiSlaveDev.run is embedded as a step function
over a connection-state record and a driver folding it over the list of
received frames.  Each frame models one successfully framed 16-byte request
together with any payload bytes that follow it; receive failures on the
16-byte header, framing violations and unknown opcodes all leave the loop
through break and are modelled by dedicated terminator frames, and reaching
the end of the frame list models the exit event being set from outside
(RevPiSlaveDev.stop, a dirty disconnect).  Bytes are Nat values and the
process image is a byte function so that positional file writes are total. -/

/-- The process image file, byte by byte. -/
def PImage : Type := Nat → Nat

/-- Positional write: seek to pos and write the byte list. -/
def writeBytes (img : PImage) (pos : Nat) (bs : List Nat) : PImage :=
  match bs with
  | [] => img
  | b :: rest => writeBytes (fun i => if i = pos then b else img i) (pos + 1) rest

/-- Read length bytes from position (the DA reply). -/
def readBytes (img : PImage) (pos len : Nat) : List Nat :=
  (List.range len).map (fun i => img (pos + i))

/-- The per-connection dirty dictionary ey_dict, insertion ordered. -/
def EyDict : Type := List (Nat × List Nat)

/-- Python dict assignment ey_dict[position] = bytes: an existing key keeps
its position in the insertion order and receives the new value, a new key is
appended. -/
def eyInsert (pos : Nat) (bs : List Nat) : EyDict → EyDict
  | [] => [(pos, bs)]
  | (p, v) :: rest =>
    if p = pos then (p, bs) :: rest else (p, v) :: eyInsert pos bs rest

/-- Python del ey_dict[position] guarded by a membership test. -/
def eyRemove (pos : Nat) : EyDict → EyDict
  | [] => []
  | (p, v) :: rest => if p = pos then rest else (p, v) :: eyRemove pos rest

/-- Lookup in ey_dict. -/
def eyLookup (pos : Nat) : EyDict → Option (List Nat)
  | [] => none
  | (p, v) :: rest => if p = pos then some v else eyLookup pos rest

/-- The dirty-set flush at the end of RevPiSlaveDev.run: iterate the dirty
dictionary in insertion order and write every entry to the process image. -/
def applyEy (d : EyDict) (img : PImage) : PImage :=
  match d with
  | [] => img
  | (p, v) :: rest => applyEy rest (writeBytes img p v)

/-- Connection state of one RevPiSlaveDev worker. -/
structure DevState where
  acl : Int
  img : PImage
  ey : EyDict
  got_replace_ios : Bool
  doerror : Bool
  deadtime : Option Nat
  watchdog : Bool
  developermode : Bool
  rpioAvailable : Bool

/-- Response chunks sent back over the connection. -/
inductive Out where
  | dataOut (bs : List Nat)
  | ack
  | errByte
  | denied
  | syncOut
  | pictoryOut
  | pictoryHash
  | rpioOut
  | rpioHash
  | rpioNull
  deriving Repr, DecidableEq

/-- One received request frame, after framing.  Payload byte sequences that
the handler reads from the socket are carried inside the frame; the FD
scatter-write payload is carried in decoded record form.  BAD models a
framing violation or an unknown opcode on a successfully received header;
RECVFAIL models a failed or short receive. -/
inductive Frame where
  | DA (pos len : Nat)
  | WD (pos : Nat) (data : List Nat)
  | FD (recs : List (Nat × List Nat))
  | SYNC
  | CF (timeoutms : Nat)
  | EY (pos control : Nat) (data : List Nat)
  | PI (ok : Bool)
  | PH
  | RP (ok : Bool)
  | RH
  | EX
  | IC (request : Nat) (data : List Nat) (ok : Bool)
  | DV (c d : Nat)
  | BAD
  | RECVFAIL
  deriving Repr, DecidableEq

/-- Result of handling one frame: continue the loop (skipRuntime records the
continue statements of PI and RP that bypass the runtime check), leave it
through break (a dirty exit), or leave it through EX (a clean exit). -/
inductive StepRes where
  | cont (st : DevState) (out : List Out) (skipRuntime : Bool)
  | halt (st : DevState) (out : List Out)
  | clean (st : DevState)

/-- Handling of a single frame, following the if/elif dispatch of
RevPiSlaveDev.run line by line. -/
def stepDev (st : DevState) (f : Frame) : StepRes :=
  match f with
  | .DA pos len => .cont st [.dataOut (readBytes st.img pos len)] false
  | .WD pos data =>
    if st.acl < 1 then .halt st [.denied]
    else .cont { st with img := writeBytes st.img pos data } [.ack] false
  | .FD recs =>
    if st.acl < 1 then .halt st [.denied]
    else
      .cont { st with img := recs.foldl (fun im r => writeBytes im r.1 r.2) st.img }
        [.ack] false
  | .SYNC => .cont st [.syncOut] false
  | .CF t =>
    if 0 < t ∧ t ≤ 65535 then .cont { st with deadtime := some t } [.ack] false
    else .halt st [.errByte]
  | .EY pos control data =>
    if st.acl < 1 then .halt st [.denied]
    else
      let ok : Out := if st.doerror then .errByte else .ack
      if control = 255 then .cont { st with ey := [] } [ok] false
      else if control = 254 then .cont { st with ey := eyRemove pos st.ey } [ok] false
      else .cont { st with ey := eyInsert pos data st.ey } [ok] false
  | .PI ok => if ok then .cont st [.pictoryOut] true else .halt st []
  | .PH => .cont st [.pictoryHash] false
  | .RP ok =>
    if st.rpioAvailable then
      if ok then .cont st [.rpioOut] true else .halt st []
    else .cont st [.rpioNull] true
  | .RH => .cont { st with got_replace_ios := true } [.rpioHash] false
  | .EX => .clean st
  | .IC _ _ ok =>
    if st.acl < 1 then .halt st [.denied]
    else .cont st [if ok then .ack else .errByte] false
  | .DV c d =>
    if st.developermode then
      if st.acl < 9 then .halt st [.denied]
      else if c = 97 then .cont { st with acl := 0 } [.ack] false
      else if c = 98 then .cont { st with doerror := d = 1 } [.ack] false
      else .cont st [] false
    else .halt st []
  | .BAD => .halt st []
  | .RECVFAIL => .halt st []

/-- Result of the whole receive loop: final state, the dirty flag at loop
exit, and the concatenated responses. -/
structure LoopRes where
  st : DevState
  dirty : Bool
  outs : List Out

/-- The receive loop of RevPiSlaveDev.run over a list of frames, each paired
with a flag telling whether its handling exceeded the configured deadline.
An exhausted frame list models the exit event being set from outside, which
leaves the loop with dirty still True. -/
def runLoop (st : DevState) : List (Frame × Bool) → LoopRes
  | [] => ⟨st, true, []⟩
  | (f, slow) :: rest =>
    match stepDev st f with
    | .halt st' out => ⟨st', true, out⟩
    | .clean st' => ⟨st', false, []⟩
    | .cont st' out skip =>
      if skip then
        let r := runLoop st' rest
        ⟨r.st, r.dirty, out ++ r.outs⟩
      else
        match st'.deadtime with
        | none =>
          let r := runLoop st' rest
          ⟨r.st, r.dirty, out ++ r.outs⟩
        | some _ =>
          if slow ∧ st'.watchdog then ⟨st', true, out⟩
          else
            let r := runLoop st' rest
            ⟨r.st, r.dirty, out ++ r.outs⟩

/-- A finished connection: run the loop, then, exactly when the loop was left
dirty, write every dirty-dictionary entry to the process image in insertion
order.  Returns the loop result and the final process image. -/
def runDev (st : DevState) (frames : List (Frame × Bool)) : LoopRes × PImage :=
  let r := runLoop st frames
  (r, if r.dirty then applyEy r.st.ey r.st.img else r.st.img)

/-- Initial connection state from RevPiSlaveDev.__init__: empty dirty
dictionary, no deadline, flags cleared. -/
def initDev (acl : Int) (img : PImage) (watchdog developermode rpioAvailable : Bool) :
    DevState :=
  ⟨acl, img, [], false, false, none, watchdog, developermode, rpioAvailable⟩

/-- RevPiSlave.disconnect_replace_ios: stop exactly the workers whose
got_replace_ios flag is set.  The returned list is the stopped workers. -/
def disconnect_replace_ios (ths : List DevState) : List DevState :=
  ths.filter (fun th => th.got_replace_ios)

/-! ## Program supervisor restart policy (plcsystem.py, RevPiPlc)

The supervision loop of RevPiPlc.run polls the child; on the first wake after
the child exited (delaycounter still equal to autoreloaddelay) it classifies
the exit with the test "exitcode > 0": the crash branch honors zeroonerror,
the other branch is logged as a clean exit and honors zeroonexit.  Afterwards
the loop honors autoreload.  RevPiPlc.stop instead classifies with
"exitcode == 0" / "exitcode != 0". -/

/-- Whether RevPiPlc.run zeroes the process image after the child exited with
the given code (plcsystem.py lines 154-178). -/
def zeroAfterExit (exitcode : Int) (zeroonerror zeroonexit : Bool) : Bool :=
  if exitcode > 0 then zeroonerror else zeroonexit

/-- Whether RevPiPlc.stop zeroes the process image for the final exit code
(plcsystem.py lines 250-252). -/
def zeroOnStop (exitcode : Int) (zeroonerror zeroonexit : Bool) : Bool :=
  (zeroonexit && exitcode == 0) || (zeroonerror && exitcode != 0)

/-- The zeroing rule stated by the specification (section 4.5 table): zero
exactly when the exit was clean and zeroOnExit is set, or the exit code is
nonzero and zeroOnError is set. -/
def zeroSpecRule (exitcode : Int) (zeroonerror zeroonexit : Bool) : Bool :=
  (exitcode == 0 && zeroonexit) || (exitcode != 0 && zeroonerror)

/-- One wake of the supervision loop after the child exited: the pair is
(zero the image now?, respawn eventually?).  Respawning is decided solely by
autoreload (plcsystem.py lines 180-196). -/
def superviseExitCycle (exitcode : Int) (autoreload zeroonerror zeroonexit : Bool) :
    Bool × Bool :=
  (zeroAfterExit exitcode zeroonerror zeroonexit, autoreload)

/-! ## Reset-driver watchdog (watchdogs.py, ResetDriverWatchdog)

The thread state that the claims are about: the _triggered edge flag, the
not_implemented marker and whether the thread function is still running.
The run loop transitions are: a successful blocking IOCTL whose status byte
is 1 sets _triggered; a raising IOCTL (platform without KB_WAIT_FOR_EVENT)
sets not_implemented and ends the thread. -/

/-- Observable state of a ResetDriverWatchdog. -/
structure RDWatchdog where
  triggeredFlag : Bool
  not_implemented : Bool
  running : Bool
  deriving Repr, DecidableEq

/-- Freshly constructed watchdog (thread started, no event seen). -/
def initRDWatchdog : RDWatchdog := ⟨false, false, true⟩

/-- A blocking-IOCTL return with rc = 0 and status byte 1: a piCtory
reset_driver event was detected and the edge flag is set. -/
def rdwIoctlEvent (w : RDWatchdog) : RDWatchdog := { w with triggeredFlag := true }

/-- The blocking IOCTL raised: KB_WAIT_FOR_EVENT is not implemented, the
thread function returns. -/
def rdwIoctlRaise (w : RDWatchdog) : RDWatchdog :=
  { w with not_implemented := true, running := false }

/-- The triggered property: return the edge flag and clear it
(watchdogs.py lines 244-249). -/
def rdwTriggered (w : RDWatchdog) : Bool × RDWatchdog :=
  (w.triggeredFlag, { w with triggeredFlag := false })

/-! ## Upload path check (src/src/revpipyload/revpipyload.py, xml_plcupload)

xml_plcupload replaces backslashes by slashes, joins the working directory
with os.path.dirname(filename), and accepts the upload iff
os.path.abspath(dirname).find(plcworkdir) == 0, i.e. iff the working
directory string is a character-level front of the normalized absolute path.
The path functions are embedded over character lists for the inputs that can
reach them (an absolute working directory). -/

/-- Replace every backslash by a slash (the Windows-separator rewrite). -/
def backslashToSlash (s : List Char) : List Char :=
  s.map (fun c => if c = '\\' then '/' else c)

/-- Python os.path.dirname: everything before the last slash, empty if there
is no slash. -/
def pyDirname (s : List Char) : List Char :=
  let rev := s.reverse
  match rev.dropWhile (fun c => c ≠ '/') with
  | [] => []
  | _ :: [] => ['/']
  | _ :: more => more.reverse

/-- Python os.path.join for two components: an absolute second component
replaces the first, an empty second component keeps the first with a
trailing slash, otherwise the parts are joined with a slash. -/
def pyJoin (a b : List Char) : List Char :=
  match b with
  | '/' :: _ => b
  | [] => if a = [] ∨ a.getLast? = some '/' then a else a ++ ['/']
  | _ => if a = [] ∨ a.getLast? = some '/' then a ++ b else a ++ ['/'] ++ b

/-- Split a path into slash-separated segments. -/
def splitSlash (s : List Char) : List (List Char) :=
  match s with
  | [] => [[]]
  | c :: r =>
    match splitSlash r with
    | [] => if c = '/' then [[], []] else [[c]]
    | seg :: segs => if c = '/' then [] :: seg :: segs else (c :: seg) :: segs

/-- Process the segments of an absolute path as os.path.normpath does:
drop empty and "." segments, let ".." pop the last kept segment (or vanish
at the root). -/
def normSegs (stack : List (List Char)) : List (List Char) → List (List Char)
  | [] => stack
  | seg :: rest =>
    if seg = [] ∨ seg = ['.'] then normSegs stack rest
    else if seg = ['.', '.'] then normSegs stack.dropLast rest
    else normSegs (stack ++ [seg]) rest

/-- Join segments with slashes. -/
def joinSlash : List (List Char) → List Char
  | [] => []
  | [seg] => seg
  | seg :: rest => seg ++ '/' :: joinSlash rest

/-- Python os.path.abspath for a path that is already absolute: normalize
away empty, "." and ".." segments; the result keeps its leading slash. -/
def pyAbspathAbs (s : List Char) : List Char :=
  '/' :: joinSlash (normSegs [] (splitSlash s))

/-- Character-level front test: s.find(w) == 0 in Python. -/
def listStarts (w s : List Char) : Bool :=
  match w, s with
  | [], _ => true
  | _ :: _, [] => false
  | a :: as, b :: bs => a = b && listStarts as bs

/-- The path-safety gate of xml_plcupload: true iff the upload is accepted
(src/src/revpipyload/revpipyload.py lines 1183-1192). -/
def plcuploadCheck (workdir filename : List Char) : Bool :=
  let fn := backslashToSlash filename
  let dirn := pyJoin workdir (pyDirname fn)
  listStarts workdir (pyAbspathAbs dirn)

/-- Modelled from the spec: "the concatenation of the working directory and
the client-supplied relative path, after normalization, must remain inside
the working directory".  A normalized path stays inside the working
directory iff it equals it or extends it below a path separator. -/
def insideWorkdir (workdir p : List Char) : Bool :=
  p = workdir || listStarts (workdir ++ ['/']) p

/-- The file the upload would create: the working directory joined with the
client path, normalized. -/
def uploadTarget (workdir filename : List Char) : List Char :=
  pyAbspathAbs (pyJoin workdir (backslashToSlash filename))

/-! ## Derived definitions used by the claim statements -/

/-- The connection state carried by a step result. -/
def stepState : StepRes → DevState
  | .cont st _ _ => st
  | .halt st _ => st
  | .clean st => st

/-- Whether a frame is the RH request. -/
def isRH : Frame → Bool
  | .RH => true
  | _ => false

/-- A pure EY insert event: position, control byte and payload. -/
def eyFrame (e : Nat × Nat × List Nat) : Frame × Bool :=
  (Frame.EY e.1 e.2.1 e.2.2, false)

/-- The payload of the last EY insert for a position within a sequence of
inserts, if any. -/
def lastInsert (ins : List (Nat × Nat × List Nat)) (p : Nat) : Option (List Nat) :=
  (ins.reverse.find? (fun e => e.1 == p)).map (fun e => e.2.2)

/-- Positions in order of their first occurrence. -/
def firstKeys (l : List Nat) : List Nat :=
  l.foldl (fun acc p => if p ∈ acc then acc else acc ++ [p]) []

/-- First-defined choice between two optional values. -/
def orD (a b : Option (List Nat)) : Option (List Nat) :=
  match a with
  | some v => some v
  | none => b

/-- Folding a sequence of EY inserts into a dirty dictionary. -/
def eyFold (ins : List (Nat × Nat × List Nat)) (d : EyDict) : EyDict :=
  ins.foldl (fun d e => eyInsert e.1 e.2.2 d) d

/-- Well-formedness of a manager state: every stored and every memoized
level lies inside the configured bounds. -/
def AclWF (m : IpAclManager) : Prop :=
  (∀ e ∈ m.dict_acl, (m.minlevel : Int) ≤ e.2 ∧ e.2 ≤ (m.maxlevel : Int)) ∧
  (∀ e ∈ m.dict_knownips, (m.minlevel : Int) ≤ e.2 ∧ e.2 ≤ (m.maxlevel : Int))

/-! ## Claim theorems -/

/-- C2.  The claim states that the supervisor zeroes the process image iff
(exitCode == 0 and zeroOnExit) or (exitCode != 0 and zeroOnError).  The
supervision loop instead tests "exitcode > 0", so a child killed by a signal
(negative exit code, e.g. -9 from the software watchdog) takes the clean-exit
branch: with zeroOnError set and zeroOnExit clear the image is not zeroed,
although the claim, the section 4.5 table, and RevPiPlc.stop's own condition
all require zeroing.  Evaluated at exit code -9, autoReload true,
zeroOnError true, zeroOnExit false. -/
theorem c2_negative_exitcode_skips_zeroonerror :
    superviseExitCycle (-9) true true false = (false, true) ∧
    zeroSpecRule (-9) true false = true ∧
    zeroOnStop (-9) true false = true := by
  refine ⟨?_, ?_, ?_⟩ <;> decide

/-- C3.  The claim states that plcupload fails whenever the normalized
concatenation of the working directory and the client path leaves the working
directory.  The gate only tests that the working-directory string is a
character-level front of the normalized path, so with working directory
/opt/plc the client path ../plc-evil/x.py is accepted (the normalized
directory /opt/plc-evil starts with the characters "/opt/plc") although the
upload target /opt/plc-evil/x.py lies outside the working directory. -/
theorem c3_upload_check_admits_sibling_escape :
    plcuploadCheck "/opt/plc".toList "../plc-evil/x.py".toList = true ∧
    insideWorkdir "/opt/plc".toList
      (uploadTarget "/opt/plc".toList "../plc-evil/x.py".toList) = false := by
  refine ⟨?_, ?_⟩ <;> decide

/-- C4.  At an ACL level below 1 each of the write opcodes WD, FD and EY is
answered with the single control byte 0x18, the loop is left through break
(terminating the connection), and the state - in particular the process
image - is unchanged by the request. -/
theorem c4_write_opcodes_denied_below_level_one (st : DevState) (h : st.acl < 1) :
    (∀ pos data, stepDev st (.WD pos data) = .halt st [.denied]) ∧
    (∀ recs, stepDev st (.FD recs) = .halt st [.denied]) ∧
    (∀ pos control data, stepDev st (.EY pos control data) = .halt st [.denied]) := by
  refine ⟨fun pos data => ?_, fun recs => ?_, fun pos control data => ?_⟩ <;>
    simp [stepDev, h]

/-- Witness for C4 at a concrete level-0 connection and concrete requests. -/
theorem c4_witness :
    stepDev (initDev 0 (fun _ => 0) true false false) (.WD 10 [170, 187, 204])
        = .halt (initDev 0 (fun _ => 0) true false false) [.denied] ∧
    stepDev (initDev 0 (fun _ => 0) true false false) (.FD [(3, [1, 2])])
        = .halt (initDev 0 (fun _ => 0) true false false) [.denied] ∧
    stepDev (initDev 0 (fun _ => 0) true false false) (.EY 20 0 [222, 173])
        = .halt (initDev 0 (fun _ => 0) true false false) [.denied] := by
  have h := c4_write_opcodes_denied_below_level_one
    (initDev 0 (fun _ => 0) true false false) (by decide)
  exact ⟨h.1 10 [170, 187, 204], h.2.1 [(3, [1, 2])], h.2.2 20 0 [222, 173]⟩

/-- C8.  The claim (and the docstring of ResetDriverWatchdog.run) states
that after the blocking IOCTL turns out not to be implemented the triggered
property unconditionally returns True.  The property only returns and clears
the _triggered flag and never consults not_implemented, so on a platform
whose first IOCTL call raises, every read of triggered returns False. -/
theorem c8_triggered_not_forced_true_when_not_implemented :
    (rdwIoctlRaise initRDWatchdog).not_implemented = true ∧
    (rdwIoctlRaise initRDWatchdog).running = false ∧
    (rdwTriggered (rdwIoctlRaise initRDWatchdog)).1 = false ∧
    (rdwTriggered (rdwTriggered (rdwIoctlRaise initRDWatchdog)).2).1 = false := by
  refine ⟨rfl, rfl, rfl, rfl⟩

/-- C10.  Reading the triggered property consumes the edge flag: after a
reset-driver event one read returns True, the read clears the flag, and two
successive reads with no event in between never both return True. -/
theorem c10_triggered_consumes_edge (w : RDWatchdog) :
    (rdwTriggered (rdwIoctlEvent w)).1 = true ∧
    (rdwTriggered w).2.triggeredFlag = false ∧
    (rdwTriggered (rdwTriggered w).2).1 = false ∧
    ((rdwTriggered w).1 = true → (rdwTriggered (rdwTriggered w).2).1 = false) := by
  exact ⟨rfl, rfl, rfl, fun _ => rfl⟩

/-- No handler except the RH branch ever touches got_replace_ios, and the RH
branch sets it. -/
theorem stepDev_got_replace_ios (st : DevState) (f : Frame) :
    (stepState (stepDev st f)).got_replace_ios = (st.got_replace_ios || isRH f) := by
  cases f <;> simp only [stepDev, stepState, isRH, Bool.or_false, Bool.or_true] <;>
    first
      | rfl
      | (split_ifs <;> rfl)

/-- Over a whole session that never contains an RH frame, the flag keeps its
initial value. -/
theorem runLoop_got_replace_ios (st : DevState) (fs : List (Frame × Bool))
    (h : ∀ p ∈ fs, isRH p.1 = false) :
    (runLoop st fs).st.got_replace_ios = st.got_replace_ios := by
  induction fs generalizing st with
  | nil => rfl
  | cons p rest ih =>
    obtain ⟨f, slow⟩ := p
    have hf : isRH f = false := h (f, slow) (by simp)
    have hrest : ∀ p ∈ rest, isRH p.1 = false := fun p hp => h p (by simp [hp])
    have hstep := stepDev_got_replace_ios st f
    rw [hf, Bool.or_false] at hstep
    simp only [runLoop]
    cases hs : stepDev st f with
    | halt st' out => rw [hs] at hstep; exact hstep
    | clean st' => rw [hs] at hstep; exact hstep
    | cont st' out skip =>
      rw [hs] at hstep
      simp only [stepState] at hstep
      by_cases hskip : skip = true
      · simp only [hskip, if_pos]; rw [ih st' hrest]; exact hstep
      · simp only [hskip, if_neg, Bool.false_eq_true, not_false_eq_true, if_false]
        cases st'.deadtime with
        | none => rw [ih st' hrest]; exact hstep
        | some t =>
          by_cases hsw : slow ∧ st'.watchdog = true
          · simp only [hsw, if_pos]; exact hstep
          · simp only [if_neg hsw]; rw [ih st' hrest]; exact hstep

/-- C9 counterexample.  A connection that issued only an RP request: its
frame list contains RP, yet after the session the worker's got_replace_ios
flag is still False and disconnect_replace_ios does not stop it, contrary to
the claim that connections that ever issued RH or RP are stopped. -/
theorem c9_counterexample_rp_only_connection_kept :
    (Frame.RP true, false) ∈ ([(Frame.RP true, false)] : List (Frame × Bool)) ∧
    (runLoop (initDev 1 (fun _ => 0) true false true)
        [(Frame.RP true, false)]).st.got_replace_ios = false ∧
    disconnect_replace_ios
        [(runLoop (initDev 1 (fun _ => 0) true false true)
            [(Frame.RP true, false)]).st] = [] := by
  exact ⟨by simp, rfl, rfl⟩

/-- C9 amended.  disconnect_replace_ios stops exactly those connections
whose got_replace_ios flag is set, and that flag is set by RH requests
alone: one step sets it iff the frame is RH, a session without any RH frame
leaves it unchanged, and the stopped workers are exactly the flagged ones.
RP does not mark a connection. -/
theorem c9_only_rh_marks_connection_for_overlay_disconnect :
    (∀ st f, (stepState (stepDev st f)).got_replace_ios
        = (st.got_replace_ios || isRH f)) ∧
    (∀ st fs, (∀ p ∈ fs, isRH p.1 = false) →
        (runLoop st fs).st.got_replace_ios = st.got_replace_ios) ∧
    (∀ ths th, th ∈ disconnect_replace_ios ths ↔ th ∈ ths ∧ th.got_replace_ios = true) := by
  refine ⟨stepDev_got_replace_ios, runLoop_got_replace_ios, fun ths th => ?_⟩
  simp [disconnect_replace_ios, List.mem_filter]

/-- Witness for C9 amended: a concrete RH-free session keeps the flag
cleared. -/
theorem c9_amended_witness :
    (runLoop (initDev 1 (fun _ => 0) true false true)
        [(Frame.DA 0 4, false)]).st.got_replace_ios
      = (initDev 1 (fun _ => 0) true false true).got_replace_ios := by
  exact c9_only_rh_marks_connection_for_overlay_disconnect.2.1
    (initDev 1 (fun _ => 0) true false true) [(Frame.DA 0 4, false)] (by decide)

/-- Lookup after a dictionary assignment. -/
theorem eyLookup_eyInsert (d : EyDict) (p q : Nat) (bs : List Nat) :
    eyLookup q (eyInsert p bs d) = if q = p then some bs else eyLookup q d := by
  induction d with
  | nil =>
    simp only [eyInsert, eyLookup]
    by_cases h : p = q
    · subst h; simp
    · rw [if_neg h, if_neg (fun hh => h (Eq.symm hh))]
  | cons e rest ih =>
    obtain ⟨ep, ev⟩ := e
    simp only [eyInsert]
    by_cases hep : ep = p
    · subst hep
      simp only [if_pos rfl, eyLookup]
      by_cases hq : ep = q
      · subst hq; simp
      · rw [if_neg hq, if_neg (fun hh => hq (Eq.symm hh)), if_neg hq]
    · rw [if_neg hep]
      simp only [eyLookup]
      by_cases hq : ep = q
      · subst hq
        rw [if_pos rfl, if_pos rfl, if_neg hep]
      · rw [if_neg hq, ih]
        by_cases hqp : q = p
        · rw [if_pos hqp, if_pos hqp]
        · rw [if_neg hqp, if_neg hqp, if_neg hq]

/-- Keys after a dictionary assignment: an existing key keeps the key list,
a new key is appended. -/
theorem keys_eyInsert (d : EyDict) (p : Nat) (bs : List Nat) :
    (eyInsert p bs d).map Prod.fst =
      if p ∈ d.map Prod.fst then d.map Prod.fst else d.map Prod.fst ++ [p] := by
  induction d with
  | nil => simp [eyInsert]
  | cons e rest ih =>
    obtain ⟨ep, ev⟩ := e
    simp only [eyInsert]
    by_cases hep : ep = p
    · subst hep; simp
    · rw [if_neg hep]
      simp only [List.map_cons, ih]
      by_cases hmem : p ∈ rest.map Prod.fst
      · rw [if_pos hmem, if_pos (List.mem_cons.mpr (Or.inr hmem))]
      · have hne : ¬ p ∈ ep :: rest.map Prod.fst := by
          simp only [List.mem_cons, not_or]
          exact ⟨fun h => hep (Eq.symm h), hmem⟩
        rw [if_neg hmem, if_neg hne, List.cons_append]

/-- The last insert for a position, peeled one event at a time. -/
theorem lastInsert_cons (e : Nat × Nat × List Nat) (rest : List (Nat × Nat × List Nat))
    (p : Nat) :
    lastInsert (e :: rest) p =
      orD (lastInsert rest p) (if e.1 = p then some e.2.2 else none) := by
  simp only [lastInsert, List.reverse_cons, List.find?_append]
  cases hfind : rest.reverse.find? (fun x => x.1 == p) with
  | some v => simp [orD, Option.orElse, hfind]
  | none =>
    simp only [hfind, orD]
    by_cases hp : e.1 = p
    · have hb : (e.1 == p) = true := beq_iff_eq.mpr hp
      simp [List.find?, hb, hp, Option.orElse]
    · have hb : (e.1 == p) = false := beq_eq_false_iff_ne.mpr hp
      simp [List.find?, hb, hp, Option.orElse]

/-- The dirty dictionary produced by a sequence of inserts answers every
position with the payload of the last insert for it. -/
theorem eyLookup_eyFold (ins : List (Nat × Nat × List Nat)) (d : EyDict) (p : Nat) :
    eyLookup p (eyFold ins d) = orD (lastInsert ins p) (eyLookup p d) := by
  induction ins generalizing d with
  | nil => simp [eyFold, lastInsert, orD]
  | cons e rest ih =>
    simp only [eyFold, List.foldl_cons] at *
    rw [ih (eyInsert e.1 e.2.2 d), eyLookup_eyInsert, lastInsert_cons]
    cases hl : lastInsert rest p with
    | some v => simp [orD]
    | none =>
      simp only [orD]
      by_cases hp : e.1 = p
      · rw [if_pos hp, if_pos hp.symm]
      · rw [if_neg hp, if_neg (fun h => hp h.symm)]

/-- The keys of the dirty dictionary produced by a sequence of inserts are
the positions in order of first occurrence. -/
theorem keys_eyFold (ins : List (Nat × Nat × List Nat)) (d : EyDict) :
    (eyFold ins d).map Prod.fst =
      (ins.map (fun e => e.1)).foldl
        (fun acc p => if p ∈ acc then acc else acc ++ [p]) (d.map Prod.fst) := by
  induction ins generalizing d with
  | nil => simp [eyFold]
  | cons e rest ih =>
    simp only [eyFold, List.foldl_cons, List.map_cons] at *
    rw [ih (eyInsert e.1 e.2.2 d), keys_eyInsert]

/-- Processing a block of EY insert frames at a write-capable level: every
insert is acknowledged, only the dirty dictionary evolves (by dictionary
assignment, in order), and the loop continues with the rest of the frames. -/
theorem runLoop_eyFrames (ins : List (Nat × Nat × List Nat)) (st : DevState)
    (rest : List (Frame × Bool))
    (hacl : 1 ≤ st.acl)
    (hctl : ∀ e ∈ ins, e.2.1 ≠ 255 ∧ e.2.1 ≠ 254) :
    runLoop st (ins.map eyFrame ++ rest) =
      ⟨(runLoop { st with ey := eyFold ins st.ey } rest).st,
       (runLoop { st with ey := eyFold ins st.ey } rest).dirty,
       List.replicate ins.length (if st.doerror then Out.errByte else Out.ack) ++
         (runLoop { st with ey := eyFold ins st.ey } rest).outs⟩ := by
  induction ins generalizing st with
  | nil => simp [eyFold]
  | cons e rest' ih =>
    obtain ⟨hc255, hc254⟩ := hctl e (by simp)
    have hctl' : ∀ x ∈ rest', x.2.1 ≠ 255 ∧ x.2.1 ≠ 254 :=
      fun x hx => hctl x (by simp [hx])
    simp only [List.map_cons, List.cons_append, runLoop, eyFrame]
    simp only [stepDev, if_neg (by omega : ¬ st.acl < 1), if_neg hc255, if_neg hc254]
    have hrec := ih { st with ey := eyInsert e.1 e.2.2 st.ey } hacl hctl'
    cases hdt : st.deadtime with
    | none =>
      rw [hdt] at hrec
      simp only [Bool.false_eq_true, if_false, false_and, List.append_eq, hrec,
        eyFold, List.foldl_cons, List.length_cons, List.replicate_succ,
        List.cons_append, List.nil_append]
    | some t =>
      rw [hdt] at hrec
      simp only [Bool.false_eq_true, if_false, false_and, List.append_eq, hrec,
        eyFold, List.foldl_cons, List.length_cons, List.replicate_succ,
        List.cons_append, List.nil_append]

/-- C1.  For a connection at a write-capable level, a session consisting of
EY inserts: on abnormal termination (receive failure on the next header,
modelled by RECVFAIL; a framing violation or unknown opcode, modelled by BAD;
or an externally forced disconnect, modelled by the exhausted frame list) the
loop is left dirty and the worker writes exactly its dirty dictionary over
the process image - the entries in first-insertion order, each position
carrying the payload of its last EY insert.  A session ended by EX is left
clean and the process image keeps its initial contents. -/
theorem c1_dirty_set_guarantee
    (acl : Int) (img : PImage) (wd dev rpa : Bool)
    (ins : List (Nat × Nat × List Nat))
    (hacl : 1 ≤ acl)
    (hctl : ∀ e ∈ ins, e.2.1 ≠ 255 ∧ e.2.1 ≠ 254)
    (term : List (Frame × Bool))
    (hterm : term = [] ∨ term = [(Frame.BAD, false)] ∨ term = [(Frame.RECVFAIL, false)]) :
    ((runDev (initDev acl img wd dev rpa) (ins.map eyFrame ++ term)).1.dirty = true ∧
     (runDev (initDev acl img wd dev rpa) (ins.map eyFrame ++ term)).1.st.ey
        = eyFold ins [] ∧
     (runDev (initDev acl img wd dev rpa) (ins.map eyFrame ++ term)).2
        = applyEy (eyFold ins []) img ∧
     (∀ p, eyLookup p (eyFold ins []) = lastInsert ins p) ∧
     (eyFold ins []).map Prod.fst = firstKeys (ins.map (fun e => e.1))) ∧
    (runDev (initDev acl img wd dev rpa) (ins.map eyFrame ++ [(Frame.EX, false)])).2
      = img := by
  have hrun := runLoop_eyFrames ins (initDev acl img wd dev rpa)
  constructor
  · have h1 := hrun term hacl hctl
    have hloop :
        runLoop { initDev acl img wd dev rpa with
            ey := eyFold ins (initDev acl img wd dev rpa).ey } term
          = ⟨{ initDev acl img wd dev rpa with
                ey := eyFold ins (initDev acl img wd dev rpa).ey }, true, []⟩ := by
      rcases hterm with h | h | h <;> subst h <;> rfl
    refine ⟨?_, ?_, ?_, ?_, ?_⟩
    · simp only [runDev, h1, hloop]
    · simp only [runDev, h1, hloop]; rfl
    · simp only [runDev, h1, hloop]; rfl
    · intro p
      rw [eyLookup_eyFold ins [] p]
      cases hl : lastInsert ins p with
      | some v => simp [orD]
      | none => simp [orD, eyLookup]
    · rw [keys_eyFold ins []]
      simp [firstKeys, List.foldl_map]
  · have h1 := hrun [(Frame.EX, false)] hacl hctl
    have hloop :
        runLoop { initDev acl img wd dev rpa with
            ey := eyFold ins (initDev acl img wd dev rpa).ey } [(Frame.EX, false)]
          = ⟨{ initDev acl img wd dev rpa with
                ey := eyFold ins (initDev acl img wd dev rpa).ey }, false, []⟩ := rfl
    simp only [runDev, h1, hloop, Bool.false_eq_true, if_false]
    rfl

/-- Witness for C1: two inserts with an update of the first position, closed
by a framing violation; and the same inserts closed by EX. -/
theorem c1_witness :
    ((runDev (initDev 1 (fun _ => 0) true false false)
        ([(20, 0, [222, 173]), (10, 1, [5]), (20, 7, [9, 9])].map eyFrame ++
          [(Frame.BAD, false)])).1.dirty = true ∧
     (runDev (initDev 1 (fun _ => 0) true false false)
        ([(20, 0, [222, 173]), (10, 1, [5]), (20, 7, [9, 9])].map eyFrame ++
          [(Frame.BAD, false)])).1.st.ey
        = eyFold [(20, 0, [222, 173]), (10, 1, [5]), (20, 7, [9, 9])] [] ∧
     (runDev (initDev 1 (fun _ => 0) true false false)
        ([(20, 0, [222, 173]), (10, 1, [5]), (20, 7, [9, 9])].map eyFrame ++
          [(Frame.BAD, false)])).2
        = applyEy (eyFold [(20, 0, [222, 173]), (10, 1, [5]), (20, 7, [9, 9])] [])
            (fun _ => 0) ∧
     (∀ p, eyLookup p (eyFold [(20, 0, [222, 173]), (10, 1, [5]), (20, 7, [9, 9])] [])
        = lastInsert [(20, 0, [222, 173]), (10, 1, [5]), (20, 7, [9, 9])] p) ∧
     (eyFold [(20, 0, [222, 173]), (10, 1, [5]), (20, 7, [9, 9])] []).map Prod.fst
        = firstKeys ([(20, 0, [222, 173]), (10, 1, [5]), (20, 7, [9, 9])].map
            (fun e => e.1))) ∧
    (runDev (initDev 1 (fun _ => 0) true false false)
        ([(20, 0, [222, 173]), (10, 1, [5]), (20, 7, [9, 9])].map eyFrame ++
          [(Frame.EX, false)])).2
      = (fun _ => 0) :=
  c1_dirty_set_guarantee 1 (fun _ => 0) true false false
    [(20, 0, [222, 173]), (10, 1, [5]), (20, 7, [9, 9])]
    (by decide) (by decide) [(Frame.BAD, false)] (Or.inr (Or.inl rfl))

/-- C7.  An input string that does not fully match the ACL grammar makes
loadacl return False without raising, and the manager - its stored entries,
its (derived) pattern regexes and its memoized lookups - is left exactly as
it was, so every later lookup behaves as before the failed load. -/
theorem c7_loadacl_rejects_invalid_input_unchanged (m : IpAclManager) (s : String)
    (h : aclOk m.minlevel m.maxlevel s.toList = false) :
    loadacl m s = some (false, m) ∧
    (∀ r ∈ loadacl m s, r.2.dict_acl = m.dict_acl ∧
      r.2.dict_knownips = m.dict_knownips ∧
      ∀ ip, get_acllevel r.2 ip = get_acllevel m ip) := by
  have hl : loadacl m s = some (false, m) := by
    simp only [loadacl, h, Bool.false_eq_true, if_false]
  refine ⟨hl, fun r hr => ?_⟩
  rw [hl] at hr
  simp only [Option.mem_def, Option.some_inj] at hr
  subst hr
  exact ⟨rfl, rfl, fun ip => rfl⟩

/-- Witness for C7: a malformed ACL string against a populated manager. -/
theorem c7_witness :
    loadacl ⟨0, 4, [("192.168.0.1", 2)], [("192.168.0.1", 2)]⟩ "hello world"
      = some (false, ⟨0, 4, [("192.168.0.1", 2)], [("192.168.0.1", 2)]⟩) :=
  (c7_loadacl_rejects_invalid_input_unchanged
    ⟨0, 4, [("192.168.0.1", 2)], [("192.168.0.1", 2)]⟩ "hello world"
    (by simp [aclOk, parseEntry, pseq, parseOctet, expectChar, parseLevel,
      isAclChar, String.toList])).1


/-- Equal code points give equal characters. -/
theorem char_eq_of_toNat_eq {a b : Char} (h : a.toNat = b.toNat) : a = b := by
  simpa [Char.ext_iff, UInt32.ext_iff] using h

/-- A decimal digit has a code point above that of the star (42). -/
theorem char_isDigit_toNat_gt_star {c : Char} (h : c.isDigit = true) : 42 < c.toNat := by
  simp only [Char.isDigit, Bool.and_eq_true, ge_iff_le, decide_eq_true_eq] at h
  obtain ⟨h1, -⟩ := h
  rw [UInt32.le_def, BitVec.le_def] at h1
  have h48 : ((48 : UInt32).toBitVec).toNat = 48 := rfl
  rw [h48] at h1
  show 42 < c.val.toBitVec.toNat
  omega

/-- Strict code-point order is asymmetric. -/
theorem pyStrLt_asymm : ∀ a b : List Char, pyStrLt a b = true → pyStrLt b a = false
  | [], [] => by simp [pyStrLt]
  | [], _ :: _ => by intro h; simp [pyStrLt]
  | _ :: _, [] => by simp [pyStrLt]
  | a :: as, b :: bs => by
    simp only [pyStrLt]
    intro h
    by_cases h1 : a.toNat < b.toNat
    · rw [if_neg (by omega : ¬ b.toNat < a.toNat), if_pos h1]
    · rw [if_neg h1] at h
      by_cases h2 : b.toNat < a.toNat
      · rw [if_pos h2] at h; cases h
      · rw [if_neg h2] at h
        rw [if_neg h2, if_neg h1]
        exact pyStrLt_asymm as bs h

/-- Strict code-point order is total up to equality. -/
theorem pyStrLt_total : ∀ a b : List Char, pyStrLt a b = false → pyStrLt b a = true ∨ a = b
  | [], [] => fun _ => Or.inr rfl
  | [], _ :: _ => by simp [pyStrLt]
  | _ :: _, [] => by intro h; left; simp [pyStrLt]
  | a :: as, b :: bs => by
    simp only [pyStrLt]
    intro h
    by_cases h1 : a.toNat < b.toNat
    · rw [if_pos h1] at h; cases h
    · rw [if_neg h1] at h
      by_cases h2 : b.toNat < a.toNat
      · left; rw [if_pos h2]
      · rw [if_neg h2] at h
        have hab : a = b := char_eq_of_toNat_eq (by omega)
        rcases pyStrLt_total as bs h with hlt | heq
        · left; rw [if_neg h2, if_neg h1]; exact hlt
        · right; rw [hab, heq]

/-- Strict code-point order is transitive. -/
theorem pyStrLt_trans : ∀ a b c : List Char,
    pyStrLt a b = true → pyStrLt b c = true → pyStrLt a c = true
  | [], [], _ => by intro h; simp [pyStrLt] at h
  | [], _ :: _, [] => by intro _ h'; simp [pyStrLt] at h'
  | [], _, _ :: _ => by intro _ _; simp [pyStrLt]
  | _ :: _, [], _ => by intro h; simp [pyStrLt] at h
  | _ :: _, _ :: _, [] => by intro _ h'; simp [pyStrLt] at h'
  | a :: as, b :: bs, c :: cs => by
    simp only [pyStrLt]
    intro h h'
    by_cases hab : a.toNat < b.toNat
    · by_cases hbc : b.toNat < c.toNat
      · rw [if_pos (by omega : a.toNat < c.toNat)]
      · rw [if_neg hbc] at h'
        by_cases hcb : c.toNat < b.toNat
        · rw [if_pos hcb] at h'; cases h'
        · rw [if_pos (by omega : a.toNat < c.toNat)]
    · rw [if_neg hab] at h
      by_cases hba : b.toNat < a.toNat
      · rw [if_pos hba] at h; cases h
      · rw [if_neg hba] at h
        by_cases hbc : b.toNat < c.toNat
        · rw [if_pos (by omega : a.toNat < c.toNat)]
        · rw [if_neg hbc] at h'
          by_cases hcb : c.toNat < b.toNat
          · rw [if_pos hcb] at h'; cases h'
          · rw [if_neg hcb] at h'
            rw [if_neg (by omega : ¬ a.toNat < c.toNat),
              if_neg (by omega : ¬ c.toNat < a.toNat)]
            exact pyStrLt_trans as bs cs h h'

/-- The wildcard pattern sorts strictly below any pattern that continues the
shared front with a character above code point 42. -/
theorem pyStrLt_star_below (pre : List Char) (c : Char) (q' p' : List Char)
    (hc : 42 < c.toNat) :
    pyStrLt (pre ++ '*' :: q') (pre ++ c :: p') = true := by
  induction pre with
  | nil =>
    have h42 : ('*').toNat = 42 := rfl
    simp only [List.nil_append, pyStrLt]
    rw [if_pos (by omega)]
  | cons a pre' ih =>
    simp only [List.cons_append, pyStrLt]
    rw [if_neg (lt_irrefl _), if_neg (lt_irrefl _)]
    exact ih

/-- Inserting into the descending list is a permutation. -/
theorem insertDesc_perm (x : String) (l : List String) :
    (insertDesc x l).Perm (x :: l) := by
  induction l with
  | nil => simp [insertDesc]
  | cons y ys ih =>
    simp only [insertDesc]
    by_cases h : pyStrLt x.toList y.toList = true
    · rw [if_pos h]
      exact (List.Perm.cons y ih).trans (List.Perm.swap x y ys)
    · rw [if_neg h]

/-- The descending sort is a permutation of the keys. -/
theorem sortDesc_perm (l : List String) : (sortDesc l).Perm l := by
  induction l with
  | nil => simp [sortDesc]
  | cons x xs ih =>
    exact (insertDesc_perm x (sortDesc xs)).trans (List.Perm.cons x ih)

/-- Inserting keeps the list pairwise non-ascending. -/
theorem insertDesc_pairwise (x : String) (l : List String)
    (hl : l.Pairwise (fun a b => pyStrLt a.toList b.toList = false)) :
    (insertDesc x l).Pairwise (fun a b => pyStrLt a.toList b.toList = false) := by
  induction l with
  | nil => simp [insertDesc]
  | cons y ys ih =>
    rcases List.pairwise_cons.mp hl with ⟨hy, hys⟩
    simp only [insertDesc]
    by_cases h : pyStrLt x.toList y.toList = true
    · rw [if_pos h]
      refine List.pairwise_cons.mpr ⟨?_, ih hys⟩
      intro z hz
      rcases List.mem_cons.mp ((insertDesc_perm x ys).mem_iff.mp hz) with rfl | hzys
      · exact pyStrLt_asymm _ _ h
      · exact hy z hzys
    · rw [if_neg h]
      have hxy : pyStrLt x.toList y.toList = false := by
        cases hb : pyStrLt x.toList y.toList
        · rfl
        · exact absurd hb h
      refine List.pairwise_cons.mpr ⟨?_, hl⟩
      intro z hz
      rcases List.mem_cons.mp hz with rfl | hzys
      · exact hxy
      · have hyz : pyStrLt y.toList z.toList = false := hy z hzys
        cases hxz : pyStrLt x.toList z.toList
        · rfl
        · exfalso
          rcases pyStrLt_total x.toList y.toList hxy with hyx | hxyeq
          · rcases pyStrLt_total y.toList z.toList hyz with hzy | hyzeq
            · have := pyStrLt_trans z.toList y.toList x.toList hzy hyx
              rw [pyStrLt_asymm _ _ this] at hxz; cases hxz
            · rw [← hyzeq] at hxz
              rw [pyStrLt_asymm _ _ hyx] at hxz; cases hxz
          · rw [hxyeq] at hxz
            rw [hyz] at hxz; cases hxz

/-- The descending sort is pairwise non-ascending. -/
theorem sortDesc_pairwise (l : List String) :
    (sortDesc l).Pairwise (fun a b => pyStrLt a.toList b.toList = false) := by
  induction l with
  | nil => simp [sortDesc]
  | cons x xs ih => exact insertDesc_pairwise x (sortDesc xs) ih

/-- Walking the for loop of get_acllevel: non-matching candidates are
skipped, the first matching one is resolved against the dictionary. -/
theorem findAclMatch_skip (dict : List (String × Int)) (ip : String) :
    ∀ (l1 : List String) (k : String) (l2 : List String),
    (∀ a ∈ l1, patMatch a.toList ip.toList = false) →
    patMatch k.toList ip.toList = true →
    findAclMatch dict ip (l1 ++ k :: l2) = alookup k dict := by
  intro l1
  induction l1 with
  | nil =>
    intro k l2 _ hk
    have hk' : patMatch k.data ip.data = true := hk
    simp [findAclMatch, hk, hk']
  | cons a l1' ih =>
    intro k l2 h hk
    have ha := h a (by simp)
    simp only [List.cons_append, findAclMatch, ha, Bool.false_eq_true, if_false]
    exact ih k l2 (fun b hb => h b (by simp [hb])) hk

/-- Dictionary lookup resolves a stored pair when the keys are unique. -/
theorem alookup_of_mem_nodup :
    ∀ (d : List (String × Int)) (k : String) (lv : Int),
    (k, lv) ∈ d → (d.map Prod.fst).Nodup → alookup k d = some lv := by
  intro d
  induction d with
  | nil => intro k lv h _; simp at h
  | cons e rest ih =>
    intro k lv hmem hnd
    obtain ⟨k2, v2⟩ := e
    simp only [List.map_cons, List.nodup_cons] at hnd
    rcases List.mem_cons.mp hmem with heq | hrest
    · injection heq with hk hv
      subst hk; subst hv
      simp [alookup]
    · by_cases hk : k2 = k
      · subst hk
        exact absurd (List.mem_map.mpr ⟨(k2, lv), hrest, rfl⟩) hnd.1
      · simp only [alookup, if_neg hk]
        exact ih k lv hrest hnd.2

/-- On a memoization miss, get_acllevel returns the level of the pattern
that matches the IP and sorts above every other matching pattern. -/
theorem get_acllevel_max_match (m : IpAclManager) (ip k : String) (lv : Int)
    (hmiss : alookup ip m.dict_knownips = none)
    (hnodup : (m.dict_acl.map Prod.fst).Nodup)
    (hmem : (k, lv) ∈ m.dict_acl)
    (hk : patMatch k.toList ip.toList = true)
    (hmax : ∀ k' lv', (k', lv') ∈ m.dict_acl → k' ≠ k →
        patMatch k'.toList ip.toList = true → pyStrLt k'.toList k.toList = true) :
    (get_acllevel m ip).1 = lv := by
  have hksort : k ∈ sortDesc (m.dict_acl.map Prod.fst) :=
    (sortDesc_perm _).mem_iff.mpr (List.mem_map.mpr ⟨(k, lv), hmem, rfl⟩)
  obtain ⟨l1, l2, hsplit⟩ := List.append_of_mem hksort
  have hpw := sortDesc_pairwise (m.dict_acl.map Prod.fst)
  have hnd : (sortDesc (m.dict_acl.map Prod.fst)).Nodup :=
    (sortDesc_perm _).nodup_iff.mpr hnodup
  rw [hsplit] at hpw hnd
  have hkl1 : k ∉ l1 := by
    intro hkin
    rcases List.nodup_append.mp hnd with ⟨-, -, hdisj⟩
    exact hdisj hkin (by simp)
  have hskip : ∀ a ∈ l1, patMatch a.toList ip.toList = false := by
    intro a ha
    cases hb : patMatch a.toList ip.toList
    · rfl
    · exfalso
      have hamem : a ∈ m.dict_acl.map Prod.fst := by
        refine (sortDesc_perm _).mem_iff.mp ?_
        rw [hsplit]
        exact List.mem_append.mpr (Or.inl ha)
      obtain ⟨pair, hpair, hfst⟩ := List.mem_map.mp hamem
      have hak : a ≠ k := fun h => hkl1 (h ▸ ha)
      have hlt := hmax a pair.2 (by
        have : pair = (a, pair.2) := by
          obtain ⟨p1, p2⟩ := pair
          simp only at hfst
          rw [hfst]
        rw [← this]; exact hpair) hak hb
      have hR : pyStrLt a.toList k.toList = false :=
        (List.pairwise_append.mp hpw).2.2 a ha k (by simp)
      rw [hlt] at hR; cases hR
  have hfind : findAclMatch m.dict_acl ip (sortDesc (m.dict_acl.map Prod.fst))
      = some lv := by
    rw [hsplit, findAclMatch_skip m.dict_acl ip l1 k l2 hskip hk]
    exact alookup_of_mem_nodup m.dict_acl k lv hmem hnodup
  simp [get_acllevel, hmiss, hfind]

/-- C6.  On a memoization miss get_acllevel evaluates the patterns in
descending code-point order of their string form and answers with the first
full match: the returned level belongs to the matching pattern that sorts
above all other matching patterns.  Consequently, when a fully numeric
pattern and a wildcard pattern share a front and diverge at a '*', and both
fully match the IP, the numeric pattern's level is returned. -/
theorem c6_descending_order_numeric_beats_wildcard :
    (∀ (m : IpAclManager) (ip k : String) (lv : Int),
      alookup ip m.dict_knownips = none →
      (m.dict_acl.map Prod.fst).Nodup →
      (k, lv) ∈ m.dict_acl →
      patMatch k.toList ip.toList = true →
      (∀ k' lv', (k', lv') ∈ m.dict_acl → k' ≠ k →
          patMatch k'.toList ip.toList = true → pyStrLt k'.toList k.toList = true) →
      (get_acllevel m ip).1 = lv) ∧
    (∀ (minl maxl : Nat) (lp lq : Int) (ip : String) (pre p' q' : List Char) (c : Char),
      (∀ ch ∈ pre ++ c :: p', ch.isDigit = true ∨ ch = '.') →
      patMatch (pre ++ c :: p') ip.toList = true →
      patMatch (pre ++ '*' :: q') ip.toList = true →
      (get_acllevel
        ⟨minl, maxl,
         [(String.mk (pre ++ c :: p'), lp), (String.mk (pre ++ '*' :: q'), lq)], []⟩
        ip).1 = lp) := by
  constructor
  · exact get_acllevel_max_match
  · intro minl maxl lp lq ip pre p' q' c hnum hp hq
    have hc42 : 42 < c.toNat := by
      rcases hnum c (by simp) with hd | hdot
      · exact char_isDigit_toNat_gt_star hd
      · rw [hdot]; decide
    have hcstar : c ≠ '*' := by
      intro h
      rw [h] at hc42
      exact absurd hc42 (by decide)
    have hpq : String.mk (pre ++ c :: p') ≠ String.mk (pre ++ '*' :: q') := by
      intro h
      have hd : pre ++ c :: p' = pre ++ '*' :: q' := congrArg String.data h
      have := List.append_cancel_left hd
      injection this with hc _
      exact hcstar hc
    refine get_acllevel_max_match _ ip (String.mk (pre ++ c :: p')) lp rfl ?_ (by simp)
      (by simpa using hp) ?_
    · simp only [List.map_cons, List.map_nil, List.nodup_cons, List.mem_singleton,
        List.mem_cons, List.not_mem_nil, or_false, List.nodup_nil, and_true]
      constructor
      · exact hpq
      · simp
    · intro k' lv' hmem' hne hmatch
      rcases List.mem_cons.mp hmem' with heq | hmem''
      · injection heq with hk _
        exact absurd hk hne
      · rcases List.mem_cons.mp hmem'' with heq | hnil
        · injection heq with hk _
          subst hk
          show pyStrLt (String.mk (pre ++ '*' :: q')).toList
            (String.mk (pre ++ c :: p')).toList = true
          exact pyStrLt_star_below pre c q' p' hc42
        · simp at hnil

/-- Witness for C6: the numeric pattern 192.168.0.1 wins over the wildcard
192.168.0.* for the client IP 192.168.0.1. -/
theorem c6_witness :
    (get_acllevel
      ⟨0, 1,
       [(String.mk ("192.168.0.".toList ++ '1' :: []), 1),
        (String.mk ("192.168.0.".toList ++ '*' :: []), 0)], []⟩
      "192.168.0.1").1 = 1 :=
  c6_descending_order_numeric_beats_wildcard.2 0 1 1 0 "192.168.0.1"
    "192.168.0.".toList [] [] '1' (by decide) (by decide) (by decide)

/-- Shape of one octet of a matched ACL pattern. -/
def OctetOk (o : List Char) : Prop :=
  o ≠ [] ∧ o.length ≤ 3 ∧ ∀ c ∈ o, isAclChar c = true

/-- Shape of the part of the input consumed by one regex entry. -/
def EntryShape (minl maxl : Nat) (pre : List Char) : Prop :=
  ∃ o1 o2 o3 o4 d,
    pre = o1 ++ '.' :: (o2 ++ '.' :: (o3 ++ '.' :: (o4 ++ ',' :: [d]))) ∧
    OctetOk o1 ∧ OctetOk o2 ∧ OctetOk o3 ∧ OctetOk o4 ∧
    d.isDigit = true ∧ minl ≤ d.toNat - 48 ∧ d.toNat - 48 ≤ maxl

theorem pseq_eq_some {p q : List Char → Option (List Char)} {s r : List Char}
    (h : pseq p q s = some r) : ∃ mid, p s = some mid ∧ q mid = some r := by
  simp only [pseq] at h
  cases hps : p s with
  | none => rw [hps] at h; simp at h
  | some mid => rw [hps] at h; exact ⟨mid, rfl, h⟩

theorem parseOctet_chars {s r : List Char} (h : parseOctet s = some r) :
    ∃ o, OctetOk o ∧ s = o ++ r := by
  have hone : ∀ c : Char, isAclChar c = true → OctetOk [c] := by
    intro c hc
    exact ⟨by simp, by simp, by simpa using hc⟩
  have htwo : ∀ c1 c2 : Char, isAclChar c1 = true → isAclChar c2 = true →
      OctetOk [c1, c2] := by
    intro c1 c2 h1 h2
    refine ⟨by simp, by simp, ?_⟩
    intro c hc
    rcases List.mem_cons.mp hc with rfl | hc2
    · exact h1
    · rcases List.mem_cons.mp hc2 with rfl | hc3
      · exact h2
      · simp at hc3
  have hthree : ∀ c1 c2 c3 : Char, isAclChar c1 = true → isAclChar c2 = true →
      isAclChar c3 = true → OctetOk [c1, c2, c3] := by
    intro c1 c2 c3 h1 h2 h3
    refine ⟨by simp, by simp, ?_⟩
    intro c hc
    rcases List.mem_cons.mp hc with rfl | hc2
    · exact h1
    · rcases List.mem_cons.mp hc2 with rfl | hc3
      · exact h2
      · rcases List.mem_cons.mp hc3 with rfl | hc4
        · exact h3
        · simp at hc4
  match s with
  | [] => simp [parseOctet] at h
  | [c1] =>
    simp only [parseOctet] at h
    by_cases h1 : isAclChar c1 = true
    · rw [if_pos h1] at h
      cases h
      exact ⟨[c1], hone c1 h1, by simp⟩
    · rw [if_neg h1] at h; simp at h
  | [c1, c2] =>
    simp only [parseOctet] at h
    by_cases h1 : isAclChar c1 = true
    · rw [if_pos h1] at h
      by_cases h2 : isAclChar c2 = true
      · rw [if_pos h2] at h
        cases h
        exact ⟨[c1, c2], htwo c1 c2 h1 h2, by simp⟩
      · rw [if_neg h2] at h
        cases h
        exact ⟨[c1], hone c1 h1, by simp⟩
    · rw [if_neg h1] at h; simp at h
  | [c1, c2, c3] =>
    simp only [parseOctet] at h
    by_cases h1 : isAclChar c1 = true
    · rw [if_pos h1] at h
      by_cases h2 : isAclChar c2 = true
      · rw [if_pos h2] at h
        by_cases h3 : isAclChar c3 = true
        · rw [if_pos h3] at h
          cases h
          exact ⟨[c1, c2, c3], hthree c1 c2 c3 h1 h2 h3, by simp⟩
        · rw [if_neg h3] at h
          cases h
          exact ⟨[c1, c2], htwo c1 c2 h1 h2, by simp⟩
      · rw [if_neg h2] at h
        cases h
        exact ⟨[c1], hone c1 h1, by simp⟩
    · rw [if_neg h1] at h; simp at h
  | c1 :: c2 :: c3 :: c4 :: rest =>
    simp only [parseOctet] at h
    by_cases h1 : isAclChar c1 = true
    · rw [if_pos h1] at h
      by_cases h2 : isAclChar c2 = true
      · rw [if_pos h2] at h
        by_cases h3 : isAclChar c3 = true
        · rw [if_pos h3] at h
          cases h
          exact ⟨[c1, c2, c3], hthree c1 c2 c3 h1 h2 h3, by simp⟩
        · rw [if_neg h3] at h
          cases h
          exact ⟨[c1, c2], htwo c1 c2 h1 h2, by simp⟩
      · rw [if_neg h2] at h
        cases h
        exact ⟨[c1], hone c1 h1, by simp⟩
    · rw [if_neg h1] at h; simp at h

theorem parseOctet_complete (o : List Char) (ho : OctetOk o) (c : Char)
    (hc : isAclChar c = false) (y : List Char) :
    parseOctet (o ++ c :: y) = some (c :: y) := by
  obtain ⟨hne, hlen, hall⟩ := ho
  match o with
  | [] => exact absurd rfl hne
  | [a] =>
    simp [parseOctet, hall a (by simp), hc]
  | [a, b] =>
    simp [parseOctet, hall a (by simp), hall b (by simp), hc]
  | [a, b, d] =>
    simp [parseOctet, hall a (by simp), hall b (by simp), hall d (by simp), hc]
  | a :: b :: d :: e :: rest =>
    exfalso
    simp only [List.length_cons] at hlen
    omega

theorem expectChar_chars {c : Char} {s r : List Char} (h : expectChar c s = some r) :
    s = c :: r := by
  match s with
  | [] => simp [expectChar] at h
  | x :: rest =>
    simp only [expectChar] at h
    by_cases hx : x = c
    · subst hx
      rw [if_pos rfl] at h
      cases h
      rfl
    · rw [if_neg hx] at h; simp at h

theorem parseLevel_chars {minl maxl : Nat} {s r : List Char}
    (h : parseLevel minl maxl s = some r) :
    ∃ d, s = d :: r ∧ d.isDigit = true ∧ minl ≤ d.toNat - 48 ∧ d.toNat - 48 ≤ maxl := by
  match s with
  | [] => simp [parseLevel] at h
  | c :: r9 =>
    simp only [parseLevel] at h
    by_cases hc : (c.isDigit && decide (minl ≤ c.toNat - 48) &&
        decide (c.toNat - 48 ≤ maxl)) = true
    · rw [if_pos hc] at h
      cases h
      simp only [Bool.and_eq_true, decide_eq_true_eq] at hc
      exact ⟨c, rfl, hc.1.1, hc.1.2, hc.2⟩
    · rw [if_neg hc] at h; simp at h

theorem parseLevel_complete (minl maxl : Nat) (d : Char) (y : List Char)
    (hd : d.isDigit = true) (hmin : minl ≤ d.toNat - 48) (hmax : d.toNat - 48 ≤ maxl) :
    parseLevel minl maxl (d :: y) = some y := by
  simp [parseLevel, hd, hmin, hmax]

theorem parseEntry_chars {minl maxl : Nat} {s r : List Char}
    (h : parseEntry minl maxl s = some r) :
    ∃ pre, EntryShape minl maxl pre ∧ s = pre ++ r := by
  obtain ⟨r1, ho1, h⟩ := pseq_eq_some h
  obtain ⟨r2, he1, h⟩ := pseq_eq_some h
  obtain ⟨r3, ho2, h⟩ := pseq_eq_some h
  obtain ⟨r4, he2, h⟩ := pseq_eq_some h
  obtain ⟨r5, ho3, h⟩ := pseq_eq_some h
  obtain ⟨r6, he3, h⟩ := pseq_eq_some h
  obtain ⟨r7, ho4, h⟩ := pseq_eq_some h
  obtain ⟨r8, he4, h⟩ := pseq_eq_some h
  obtain ⟨o1, hO1, hs⟩ := parseOctet_chars ho1
  have h1 := expectChar_chars he1
  obtain ⟨o2, hO2, hs2⟩ := parseOctet_chars ho2
  have h2 := expectChar_chars he2
  obtain ⟨o3, hO3, hs3⟩ := parseOctet_chars ho3
  have h3 := expectChar_chars he3
  obtain ⟨o4, hO4, hs4⟩ := parseOctet_chars ho4
  have h4 := expectChar_chars he4
  obtain ⟨d, hd, hdig, hdmin, hdmax⟩ := parseLevel_chars h
  refine ⟨o1 ++ '.' :: (o2 ++ '.' :: (o3 ++ '.' :: (o4 ++ ',' :: [d]))),
    ⟨o1, o2, o3, o4, d, rfl, hO1, hO2, hO3, hO4, hdig, hdmin, hdmax⟩, ?_⟩
  rw [hs, h1, hs2, h2, hs3, h3, hs4, h4, hd]
  simp [List.append_assoc]

theorem entry_step (o : List Char) (hO : OctetOk o) (c : Char)
    (hc : isAclChar c = false) (K : List Char → Option (List Char)) (rest : List Char) :
    pseq parseOctet (pseq (expectChar c) K) (o ++ c :: rest) = K rest := by
  simp only [pseq]
  rw [parseOctet_complete o hO c hc]
  simp [expectChar]

theorem parseEntry_complete (minl maxl : Nat) (pre : List Char)
    (hshape : EntryShape minl maxl pre) (x : List Char) :
    parseEntry minl maxl (pre ++ x) = some x := by
  obtain ⟨o1, o2, o3, o4, d, hpre, hO1, hO2, hO3, hO4, hdig, hdmin, hdmax⟩ := hshape
  subst hpre
  have hdotAcl : isAclChar '.' = false := by decide
  have hcommaAcl : isAclChar ',' = false := by decide
  simp only [parseEntry]
  rw [show (o1 ++ '.' :: (o2 ++ '.' :: (o3 ++ '.' :: (o4 ++ ',' :: [d])))) ++ x
      = o1 ++ '.' :: ((o2 ++ '.' :: (o3 ++ '.' :: (o4 ++ ',' :: [d]))) ++ x) by
    simp [List.append_assoc]]
  rw [entry_step o1 hO1 '.' hdotAcl]
  rw [show (o2 ++ '.' :: (o3 ++ '.' :: (o4 ++ ',' :: [d]))) ++ x
      = o2 ++ '.' :: ((o3 ++ '.' :: (o4 ++ ',' :: [d])) ++ x) by
    simp [List.append_assoc]]
  rw [entry_step o2 hO2 '.' hdotAcl]
  rw [show (o3 ++ '.' :: (o4 ++ ',' :: [d])) ++ x
      = o3 ++ '.' :: ((o4 ++ ',' :: [d]) ++ x) by
    simp [List.append_assoc]]
  rw [entry_step o3 hO3 '.' hdotAcl]
  rw [show (o4 ++ ',' :: [d]) ++ x = o4 ++ ',' :: (d :: x) by
    simp [List.append_assoc]]
  rw [entry_step o4 hO4 ',' hcommaAcl]
  exact parseLevel_complete minl maxl d x hdig hdmin hdmax

/-- Every character consumed by a regex entry is an octet character, a dot
or the comma (the level digit is an octet character as well). -/
theorem entryShape_chars {minl maxl : Nat} {pre : List Char}
    (h : EntryShape minl maxl pre) :
    ∀ ch ∈ pre, isAclChar ch = true ∨ ch = '.' ∨ ch = ',' := by
  obtain ⟨o1, o2, o3, o4, d, hpre, hO1, hO2, hO3, hO4, hdig, -, -⟩ := h
  subst hpre
  intro ch hch
  simp only [List.mem_append, List.mem_cons, List.mem_singleton,
    List.not_mem_nil, or_false] at hch
  rcases hch with h | h
  · exact Or.inl (hO1.2.2 ch h)
  rcases h with rfl | h
  · exact Or.inr (Or.inl rfl)
  rcases h with h | h
  · exact Or.inl (hO2.2.2 ch h)
  rcases h with rfl | h
  · exact Or.inr (Or.inl rfl)
  rcases h with h | h
  · exact Or.inl (hO3.2.2 ch h)
  rcases h with rfl | h
  · exact Or.inr (Or.inl rfl)
  rcases h with h | h
  · exact Or.inl (hO4.2.2 ch h)
  rcases h with rfl | rfl
  · exact Or.inr (Or.inr rfl)
  · exact Or.inl (by simp [isAclChar, hdig])

/-- Entry characters are never whitespace. -/
theorem entry_char_not_ws {ch : Char}
    (h : isAclChar ch = true ∨ ch = '.' ∨ ch = ',') : isPyWs ch = false := by
  rcases h with h | rfl | rfl
  · simp only [isAclChar, Bool.or_eq_true, decide_eq_true_eq] at h
    rcases h with hd | rfl
    · have h42 := char_isDigit_toNat_gt_star hd
      have hne : ∀ w : Char, w.toNat < 43 → ch ≠ w := by
        intro w hw heq
        rw [heq] at h42
        omega
      simp [isPyWs, hne ' ' (by decide), hne '\t' (by decide), hne '\n' (by decide),
        hne '\r' (by decide), hne '\x0b' (by decide), hne '\x0c' (by decide)]
    · decide
  · decide
  · decide

/-- A token is a chain of regex entries with no separating spaces: what a
single whitespace-delimited token of a valid ACL string must look like. -/
def entryChain (minl maxl : Nat) (t : List Char) : Bool :=
  if t.isEmpty then true
  else
    match h : parseEntry minl maxl t with
    | none => false
    | some r => entryChain minl maxl r
termination_by t.length
decreasing_by
  exact parseEntry_shrinks minl maxl t _ h

theorem entryChain_nil (minl maxl : Nat) : entryChain minl maxl [] = true := by
  unfold entryChain
  rfl

theorem entryChain_of_parse {minl maxl : Nat} {t r : List Char} (hne : t ≠ [])
    (hp : parseEntry minl maxl t = some r) :
    entryChain minl maxl t = entryChain minl maxl r := by
  conv_lhs => unfold entryChain
  rw [if_neg (by simpa [List.isEmpty_iff] using hne)]
  split
  · rename_i heq
    rw [hp] at heq; cases heq
  · rename_i r' heq
    rw [hp] at heq
    injection heq with heq
    rw [heq]

theorem entryChain_of_parse_none {minl maxl : Nat} {t : List Char} (hne : t ≠ [])
    (hp : parseEntry minl maxl t = none) :
    entryChain minl maxl t = false := by
  conv_lhs => unfold entryChain
  rw [if_neg (by simpa [List.isEmpty_iff] using hne)]
  split
  · rfl
  · rename_i r' heq
    rw [hp] at heq; cases heq

/-- All characters of an entry chain are entry characters. -/
theorem entryChain_chars (minl maxl : Nat) :
    ∀ (n : Nat) (t : List Char), t.length ≤ n → entryChain minl maxl t = true →
    ∀ ch ∈ t, isAclChar ch = true ∨ ch = '.' ∨ ch = ',' := by
  intro n
  induction n with
  | zero =>
    intro t hlen _ ch hch
    rw [List.eq_nil_of_length_eq_zero (Nat.le_zero.mp hlen)] at hch
    simp at hch
  | succ n ih =>
    intro t hlen hchain ch hch
    have hne : t ≠ [] := by
      intro h
      rw [h] at hch
      simp at hch
    cases hp : parseEntry minl maxl t with
    | none => rw [entryChain_of_parse_none hne hp] at hchain; cases hchain
    | some r =>
      obtain ⟨pre, hshape, hsplit⟩ := parseEntry_chars hp
      rw [entryChain_of_parse hne hp] at hchain
      have hlenr : r.length ≤ n := by
        have := parseEntry_shrinks minl maxl t r hp
        omega
      rw [hsplit] at hch
      rcases List.mem_append.mp hch with hpre | hr
      · exact entryShape_chars hshape ch hpre
      · exact ih r hlenr hchain ch hr

/-- A regex entry chain can be extended on the left by one entry. -/
theorem entryChain_extend {minl maxl : Nat} {pre t : List Char}
    (hshape : EntryShape minl maxl pre) (hchain : entryChain minl maxl t = true) :
    entryChain minl maxl (pre ++ t) = true := by
  have hne : pre ++ t ≠ [] := by
    obtain ⟨o1, o2, o3, o4, d, hpre, hO1, -⟩ := hshape
    subst hpre
    obtain ⟨c, o1', rfl⟩ := List.exists_cons_of_ne_nil hO1.1
    simp
  rw [entryChain_of_parse hne (parseEntry_complete minl maxl pre hshape t)]
  exact hchain

theorem takeTok_nil : takeTok [] = ([], []) := rfl

theorem takeTok_ws {c : Char} {r : List Char} (hc : isPyWs c = true) :
    takeTok (c :: r) = ([], c :: r) := by
  simp [takeTok, hc]

theorem takeTok_nonws {c : Char} {r : List Char} (hc : isPyWs c = false) :
    takeTok (c :: r) = (c :: (takeTok r).1, (takeTok r).2) := by
  simp [takeTok, hc]

theorem takeTok_append (x y : List Char) (hx : ∀ c ∈ x, isPyWs c = false) :
    takeTok (x ++ y) = (x ++ (takeTok y).1, (takeTok y).2) := by
  induction x with
  | nil => simp
  | cons c x' ih =>
    have hc := hx c (by simp)
    rw [List.cons_append, takeTok_nonws hc, ih (fun b hb => hx b (by simp [hb]))]
    rfl

theorem pySplit_nil : pySplit [] = [] := by simp [pySplit]

theorem pySplit_cons_ws {c : Char} {r : List Char} (hc : isPyWs c = true) :
    pySplit (c :: r) = pySplit r := by
  conv_lhs => unfold pySplit
  simp [hc]

theorem pySplit_cons_nonws {c : Char} {r : List Char} (hc : isPyWs c = false) :
    pySplit (c :: r) = (c :: (takeTok r).1) :: pySplit (takeTok r).2 := by
  conv_lhs => unfold pySplit
  simp [hc]

/-- Splitting a string that starts with a non-whitespace token. -/
theorem pySplit_token (x y : List Char) (hne : x ≠ [])
    (hx : ∀ c ∈ x, isPyWs c = false) :
    pySplit (x ++ y) = (x ++ (takeTok y).1) :: pySplit (takeTok y).2 := by
  match x with
  | [] => exact absurd rfl hne
  | c :: x' =>
    have hc := hx c (by simp)
    rw [List.cons_append, pySplit_cons_nonws hc,
      takeTok_append x' y (fun b hb => hx b (by simp [hb]))]
    simp

/-- A single non-whitespace token splits into itself. -/
theorem pySplit_single (x : List Char) (hne : x ≠ [])
    (hx : ∀ c ∈ x, isPyWs c = false) : pySplit x = [x] := by
  have := pySplit_token x [] hne hx
  simpa [takeTok_nil, pySplit_nil] using this

/-- A token followed by a space starts its own field. -/
theorem pySplit_sep (x y : List Char) (hne : x ≠ [])
    (hx : ∀ c ∈ x, isPyWs c = false) :
    pySplit (x ++ ' ' :: y) = x :: pySplit y := by
  rw [pySplit_token x (' ' :: y) hne hx, takeTok_ws (by decide)]
  simp [pySplit_cons_ws (by decide : isPyWs ' ' = true)]

/-- Unfolding aclOk when the entry parser fails. -/
theorem aclOk_parse_none {minl maxl : Nat} {s : List Char} (hne : s ≠ [])
    (hp : parseEntry minl maxl s = none) : aclOk minl maxl s = false := by
  conv_lhs => unfold aclOk
  rw [if_neg (by simpa [List.isEmpty_iff] using hne)]
  split
  · rfl
  · rename_i heq
    rw [hp] at heq; simp at heq
  · rename_i c r heq
    rw [hp] at heq; simp at heq

/-- Unfolding aclOk when one entry consumes the whole rest. -/
theorem aclOk_parse_entry_nil {minl maxl : Nat} {s : List Char} (hne : s ≠ [])
    (hp : parseEntry minl maxl s = some []) : aclOk minl maxl s = true := by
  conv_lhs => unfold aclOk
  rw [if_neg (by simpa [List.isEmpty_iff] using hne)]
  split
  · rename_i heq
    rw [hp] at heq; simp at heq
  · rfl
  · rename_i c r heq
    rw [hp] at heq; simp at heq

/-- Unfolding aclOk at the optional space after an entry. -/
theorem aclOk_parse_space {minl maxl : Nat} {s r : List Char} (hne : s ≠ [])
    (hp : parseEntry minl maxl s = some (' ' :: r)) :
    aclOk minl maxl s = (r.isEmpty || aclOk minl maxl r) := by
  conv_lhs => unfold aclOk
  rw [if_neg (by simpa [List.isEmpty_iff] using hne)]
  split
  · rename_i heq
    rw [hp] at heq; simp at heq
  · rename_i heq
    rw [hp] at heq; simp at heq
  · rename_i c r2 heq
    rw [hp] at heq
    injection heq with heq
    injection heq with hc hr
    subst hc; subst hr
    rw [if_pos rfl]

/-- Unfolding aclOk when the next entry follows without a space. -/
theorem aclOk_parse_other {minl maxl : Nat} {s r : List Char} {c : Char} (hne : s ≠ [])
    (hp : parseEntry minl maxl s = some (c :: r)) (hc : c ≠ ' ') :
    aclOk minl maxl s = aclOk minl maxl (c :: r) := by
  conv_lhs => unfold aclOk
  rw [if_neg (by simpa [List.isEmpty_iff] using hne)]
  split
  · rename_i heq
    rw [hp] at heq; simp at heq
  · rename_i heq
    rw [hp] at heq; simp at heq
  · rename_i c2 r2 heq
    rw [hp] at heq
    injection heq with heq
    injection heq with hch hr
    subst hch; subst hr
    rw [if_neg hc]

/-- Tokens of a valid ACL string are entry chains. -/
theorem aclOk_tokens (minl maxl : Nat) :
    ∀ (n : Nat) (s : List Char), s.length ≤ n → aclOk minl maxl s = true →
    ∀ t ∈ pySplit s, entryChain minl maxl t = true := by
  intro n
  induction n with
  | zero =>
    intro s hlen _ t ht
    rw [List.eq_nil_of_length_eq_zero (Nat.le_zero.mp hlen), pySplit_nil] at ht
    simp at ht
  | succ n ih =>
    intro s hlen hok t ht
    have hne : s ≠ [] := by
      intro h
      rw [h, pySplit_nil] at ht
      simp at ht
    cases hp : parseEntry minl maxl s with
    | none =>
      rw [aclOk_parse_none hne hp] at hok
      cases hok
    | some r =>
      obtain ⟨pre, hshape, hsplit⟩ := parseEntry_chars hp
      have hprene : pre ≠ [] := by
        obtain ⟨o1, o2, o3, o4, d, hpre, hO1, -⟩ := hshape
        subst hpre
        obtain ⟨c, o1n, rfl⟩ := List.exists_cons_of_ne_nil hO1.1
        simp
      have hprenws : ∀ c ∈ pre, isPyWs c = false :=
        fun c hc => entry_char_not_ws (entryShape_chars hshape c hc)
      have hchain_pre : entryChain minl maxl pre = true := by
        have := entryChain_extend hshape (entryChain_nil minl maxl)
        simpa using this
      have hshrink := parseEntry_shrinks minl maxl s r hp
      cases r with
      | nil =>
        rw [List.append_nil] at hsplit
        rw [hsplit] at ht
        rw [pySplit_single pre hprene hprenws] at ht
        rcases List.mem_singleton.mp ht with rfl
        exact hchain_pre
      | cons c r2 =>
        by_cases hcsp : c = ' '
        · subst hcsp
          rw [aclOk_parse_space hne hp] at hok
          rw [hsplit] at ht
          rw [pySplit_sep pre r2 hprene hprenws] at ht
          rcases List.mem_cons.mp ht with rfl | ht2
          · exact hchain_pre
          · rcases Bool.or_eq_true_iff.mp hok with hemp | hok2
            · rw [List.isEmpty_iff.mp hemp, pySplit_nil] at ht2
              simp at ht2
            · have hlenr : r2.length ≤ n := by
                simp only [List.length_cons] at hshrink
                omega
              exact ih r2 hlenr hok2 t ht2
        · rw [aclOk_parse_other hne hp hcsp] at hok
          have hlenr : (c :: r2).length ≤ n := by
            simp only [List.length_cons] at hshrink ⊢
            omega
          have hcr2ne : (c :: r2) ≠ ([] : List Char) := by simp
          cases hp2 : parseEntry minl maxl (c :: r2) with
          | none =>
            rw [aclOk_parse_none hcr2ne hp2] at hok
            cases hok
          | some r3 =>
            obtain ⟨pre2, hshape2, hsplit2⟩ := parseEntry_chars hp2
            have hpre2ne : pre2 ≠ [] := by
              obtain ⟨o1, o2, o3, o4, d, hpre, hO1, -⟩ := hshape2
              subst hpre
              obtain ⟨cc, o1n, rfl⟩ := List.exists_cons_of_ne_nil hO1.1
              simp
            obtain ⟨c0, pre2t, rfl⟩ := List.exists_cons_of_ne_nil hpre2ne
            have hc0 : c0 = c := by
              rw [List.cons_append] at hsplit2
              injection hsplit2 with h1 h2
              exact h1.symm
            cases hc0
            have hcnws : isPyWs c = false :=
              entry_char_not_ws (entryShape_chars hshape2 c (by simp))
            have htoks := ih (c :: r2) hlenr hok
            rw [hsplit] at ht
            rw [pySplit_token pre (c :: r2) hprene hprenws,
              takeTok_nonws hcnws] at ht
            rcases List.mem_cons.mp ht with rfl | htail
            · have hhead : (c :: (takeTok r2).1) ∈ pySplit (c :: r2) := by
                rw [pySplit_cons_nonws hcnws]
                simp
              have hchainhead := htoks (c :: (takeTok r2).1) hhead
              exact entryChain_extend hshape hchainhead
            · have : t ∈ pySplit (c :: r2) := by
                rw [pySplit_cons_nonws hcnws]
                exact List.mem_cons_of_mem _ htail
              exact htoks t this

/-- Splitting at the first comma of a comma-free front. -/
theorem pySplitComma1_append (x y : List Char) (hx : ∀ c ∈ x, c ≠ ',') :
    pySplitComma1 (x ++ ',' :: y) = some (x, y) := by
  induction x with
  | nil => simp [pySplitComma1]
  | cons c x' ih =>
    have hc := hx c (by simp)
    simp only [List.cons_append, pySplitComma1, if_neg hc, List.append_eq,
      ih (fun b hb => hx b (by simp [hb]))]

theorem dropWhile_all_false {l : List Char} (h : ∀ c ∈ l, isPyWs c = false) :
    l.dropWhile isPyWs = l := by
  cases l with
  | nil => rfl
  | cons c r => simp [List.dropWhile_cons, h c (by simp)]

theorem stripChars_id {l : List Char} (h : ∀ c ∈ l, isPyWs c = false) :
    stripChars l = l := by
  unfold stripChars
  rw [dropWhile_all_false h,
    dropWhile_all_false (fun c hc => h c (List.mem_reverse.mp hc)),
    List.reverse_reverse]

theorem entryShape_mem_dot {minl maxl : Nat} {pre : List Char}
    (h : EntryShape minl maxl pre) : ('.' : Char) ∈ pre := by
  obtain ⟨o1, o2, o3, o4, d, hpre, -⟩ := h
  subst hpre
  simp

/-- Evaluation of int() on a token whose first character is a digit. -/
theorem pyInt_head_digit (d : Char) (r : List Char) (hd : d.isDigit = true)
    (hnws : ∀ c ∈ d :: r, isPyWs c = false) :
    pyInt (d :: r) =
      if (d :: r).all Char.isDigit then some ((digitsToNat (d :: r) : Nat) : Int)
      else none := by
  have hstrip : stripChars (d :: r) = d :: r := stripChars_id hnws
  have hdp : d ≠ '+' := by
    intro h
    rw [h] at hd
    exact absurd hd (by decide)
  have hdm : d ≠ '-' := by
    intro h
    rw [h] at hd
    exact absurd hd (by decide)
  unfold pyInt
  simp only [hstrip]
  split
  · rename_i heq
    simp at heq
  · rename_i rr heq
    injection heq with h1 _
    exact absurd h1 hdp
  · rename_i rr heq
    injection heq with h1 _
    exact absurd h1 hdm
  · rfl

theorem digitsToNat_single (d : Char) : digitsToNat [d] = d.toNat - 48 := by
  simp [digitsToNat]

/-- Any token of a valid ACL string that survives both the comma split and
int() carries a level inside the configured bounds. -/
theorem entryChain_token_good {minl maxl : Nat} {t : List Char}
    (hchain : entryChain minl maxl t = true) (hne : t ≠ [])
    {ip lvl : List Char} (hsplit : pySplitComma1 t = some (ip, lvl))
    {i : Int} (hint : pyInt lvl = some i) :
    (minl : Int) ≤ i ∧ i ≤ (maxl : Int) := by
  cases hp : parseEntry minl maxl t with
  | none => rw [entryChain_of_parse_none hne hp] at hchain; cases hchain
  | some r =>
    have hchain_r : entryChain minl maxl r = true := by
      rw [entryChain_of_parse hne hp] at hchain
      exact hchain
    obtain ⟨pre, hshape, hteq⟩ := parseEntry_chars hp
    obtain ⟨o1, o2, o3, o4, d, hpre, hO1, hO2, hO3, hO4, hdig, hdmin, hdmax⟩ := hshape
    have hteq2 : t = (o1 ++ '.' :: (o2 ++ '.' :: (o3 ++ '.' :: o4))) ++ ',' :: (d :: r) := by
      rw [hteq, hpre]
      simp [List.append_assoc]
    have hnocomma : ∀ c ∈ o1 ++ '.' :: (o2 ++ '.' :: (o3 ++ '.' :: o4)), c ≠ ',' := by
      intro c hc
      have hOc : ∀ (o : List Char), OctetOk o → c ∈ o → c ≠ ',' := by
        intro o hO hco heq
        have := hO.2.2 c hco
        rw [heq] at this
        exact absurd this (by decide)
      simp only [List.mem_append, List.mem_cons] at hc
      rcases hc with h | h
      · exact hOc o1 hO1 h
      rcases h with rfl | h
      · decide
      rcases h with h | h
      · exact hOc o2 hO2 h
      rcases h with rfl | h
      · decide
      rcases h with h | h
      · exact hOc o3 hO3 h
      rcases h with rfl | h
      · decide
      · exact hOc o4 hO4 h
    have hcs := pySplitComma1_append _ (d :: r) hnocomma
    rw [← hteq2] at hcs
    rw [hsplit] at hcs
    injection hcs with hcs
    injection hcs with hipeq hlvleq
    have hrchars := entryChain_chars minl maxl r.length r le_rfl hchain_r
    have hnws : ∀ c ∈ d :: r, isPyWs c = false := by
      intro c hc
      rcases List.mem_cons.mp hc with rfl | hcr
      · exact entry_char_not_ws (Or.inl (by simp [isAclChar, hdig]))
      · exact entry_char_not_ws (hrchars c hcr)
    rw [hlvleq] at hint
    rw [pyInt_head_digit d r hdig hnws] at hint
    cases r with
    | nil =>
      rw [if_pos (by simp [hdig])] at hint
      injection hint with hival
      rw [← hival, digitsToNat_single]
      constructor
      · exact_mod_cast hdmin
      · exact_mod_cast hdmax
    | cons c2 r2 =>
      exfalso
      have hrne : (c2 :: r2) ≠ ([] : List Char) := by simp
      cases hp2 : parseEntry minl maxl (c2 :: r2) with
      | none =>
        rw [entryChain_of_parse_none hrne hp2] at hchain_r
        cases hchain_r
      | some r3 =>
        obtain ⟨pre3, hshape3, hr3⟩ := parseEntry_chars hp2
        have hdotr : ('.' : Char) ∈ (c2 :: r2) := by
          rw [hr3]
          exact List.mem_append_left _ (entryShape_mem_dot hshape3)
        have hallf : (d :: c2 :: r2).all Char.isDigit = false := by
          apply List.all_eq_false.mpr
          exact ⟨'.', List.mem_cons_of_mem _ hdotr, by decide⟩
        rw [hallf, if_neg (by simp)] at hint
        cases hint

theorem dictInsertStr_mem {k : String} {v : Int} {d : List (String × Int)}
    {e : String × Int} (h : e ∈ dictInsertStr k v d) : e = (k, v) ∨ e ∈ d := by
  induction d with
  | nil => simpa [dictInsertStr] using h
  | cons e2 rest ih =>
    obtain ⟨k2, v2⟩ := e2
    simp only [dictInsertStr] at h
    by_cases hk : k2 = k
    · rw [if_pos hk] at h
      rcases List.mem_cons.mp h with rfl | hrest
      · subst hk; exact Or.inl rfl
      · exact Or.inr (List.mem_cons_of_mem _ hrest)
    · rw [if_neg hk] at h
      rcases List.mem_cons.mp h with rfl | hrest
      · exact Or.inr (List.mem_cons_self _ _)
      · rcases ih hrest with h1 | h2
        · exact Or.inl h1
        · exact Or.inr (List.mem_cons_of_mem _ h2)

/-- The token loop of __set_acl only stores levels that int() produced from
good tokens, so all stored levels stay inside the bounds. -/
theorem parseAclEntries_levels (minl maxl : Nat) :
    ∀ (toks : List (List Char)) (acc d : List (String × Int)),
    (∀ e ∈ acc, (minl : Int) ≤ e.2 ∧ e.2 ≤ (maxl : Int)) →
    (∀ t ∈ toks, entryChain minl maxl t = true ∧ t ≠ []) →
    parseAclEntries acc toks = some d →
    ∀ e ∈ d, (minl : Int) ≤ e.2 ∧ e.2 ≤ (maxl : Int) := by
  intro toks
  induction toks with
  | nil =>
    intro acc d hacc _ hparse
    simp only [parseAclEntries] at hparse
    injection hparse with hparse
    rw [← hparse]
    exact hacc
  | cons t ts ih =>
    intro acc d hacc htoks hparse
    simp only [parseAclEntries] at hparse
    cases hcs : pySplitComma1 t with
    | none =>
      simp only [hcs] at hparse
      exact Option.noConfusion hparse
    | some pair =>
      obtain ⟨ipPart, lvl⟩ := pair
      simp only [hcs] at hparse
      cases hint : pyInt lvl with
      | none =>
        simp only [hint] at hparse
        exact Option.noConfusion hparse
      | some i =>
        simp only [hint] at hparse
        obtain ⟨hchain, hne⟩ := htoks t (by simp)
        have hbound := entryChain_token_good hchain hne hcs hint
        refine ih (dictInsertStr (String.mk ipPart) i acc) d ?_
          (fun t2 ht2 => htoks t2 (by simp [ht2])) hparse
        intro e he
        rcases dictInsertStr_mem he with rfl | hacc2
        · exact hbound
        · exact hacc e hacc2

/-- str.split() never produces an empty field. -/
theorem pySplit_ne_nil :
    ∀ (n : Nat) (s : List Char), s.length ≤ n → ∀ t ∈ pySplit s, t ≠ [] := by
  intro n
  induction n with
  | zero =>
    intro s hlen t ht
    rw [List.eq_nil_of_length_eq_zero (Nat.le_zero.mp hlen), pySplit_nil] at ht
    simp at ht
  | succ n ih =>
    intro s hlen t ht
    cases s with
    | nil => rw [pySplit_nil] at ht; simp at ht
    | cons c r =>
      by_cases hc : isPyWs c = true
      · rw [pySplit_cons_ws hc] at ht
        exact ih r (by simpa [Nat.lt_succ_iff] using hlen) t ht
      · rw [pySplit_cons_nonws (by simpa using hc)] at ht
        rcases List.mem_cons.mp ht with rfl | htail
        · simp
        · have hrest := takeTok_rest_le r
          simp only [List.length_cons] at hlen
          exact ih (takeTok r).2 (by omega) t htail

/-- A successful __set_acl produces a manager whose stored levels all lie in
the configured bounds, whose memo is empty and whose bounds are unchanged. -/
theorem set_acl_bounds {m m' : IpAclManager} {v : String}
    (h : set_acl m v = some m') :
    m'.minlevel = m.minlevel ∧ m'.maxlevel = m.maxlevel ∧
    m'.dict_knownips = [] ∧
    (∀ e ∈ m'.dict_acl, (m'.minlevel : Int) ≤ e.2 ∧ e.2 ≤ (m'.maxlevel : Int)) := by
  simp only [set_acl] at h
  by_cases hok : aclOk m.minlevel m.maxlevel (stripChars v.toList) = true
  · rw [if_pos hok] at h
    cases hparse : parseAclEntries [] (pySplit (stripChars v.toList)) with
    | none => rw [hparse] at h; cases h
    | some d =>
      rw [hparse] at h
      injection h with h
      subst h
      refine ⟨rfl, rfl, rfl, ?_⟩
      intro e he
      refine parseAclEntries_levels m.minlevel m.maxlevel
        (pySplit (stripChars v.toList)) [] d (by simp) ?_ hparse e he
      intro t ht
      exact ⟨aclOk_tokens m.minlevel m.maxlevel (stripChars v.toList).length
          (stripChars v.toList) le_rfl hok t ht,
        pySplit_ne_nil (stripChars v.toList).length (stripChars v.toList) le_rfl t ht⟩
  · rw [if_neg hok] at h
    cases h

theorem alookup_mem {k : String} {v : Int} :
    ∀ {d : List (String × Int)}, alookup k d = some v → (k, v) ∈ d := by
  intro d
  induction d with
  | nil => intro h; simp [alookup] at h
  | cons e rest ih =>
    intro h
    obtain ⟨k2, v2⟩ := e
    simp only [alookup] at h
    by_cases hk : k2 = k
    · rw [if_pos hk] at h
      injection h with h
      subst hk; subst h
      exact List.mem_cons_self _ _
    · rw [if_neg hk] at h
      exact List.mem_cons_of_mem _ (ih h)

theorem findAclMatch_mem {dict : List (String × Int)} {ip : String} {lv : Int} :
    ∀ {l : List String}, findAclMatch dict ip l = some lv → ∃ k, (k, lv) ∈ dict := by
  intro l
  induction l with
  | nil => intro h; simp [findAclMatch] at h
  | cons k ks ih =>
    intro h
    simp only [findAclMatch] at h
    by_cases hk : patMatch k.toList ip.toList = true
    · rw [if_pos hk] at h
      exact ⟨k, alookup_mem h⟩
    · rw [if_neg hk] at h
      exact ih h

theorem alookup_append_none {k : String} {l1 l2 : List (String × Int)}
    (h : alookup k l1 = none) : alookup k (l1 ++ l2) = alookup k l2 := by
  induction l1 with
  | nil => simp
  | cons e rest ih =>
    obtain ⟨k2, v2⟩ := e
    simp only [alookup] at h ⊢
    by_cases hk : k2 = k
    · rw [if_pos hk] at h; cases h
    · rw [if_neg hk] at h
      rw [if_neg hk]
      exact ih h

/-- On a well-formed manager every lookup answers -1 or a level inside the
bounds, the manager stays well formed, and an immediate second lookup of the
same IP answers the same level. -/
theorem get_acllevel_range_stable (m : IpAclManager) (hWF : AclWF m) (ip : String) :
    ((get_acllevel m ip).1 = -1 ∨
      ((m.minlevel : Int) ≤ (get_acllevel m ip).1 ∧
        (get_acllevel m ip).1 ≤ (m.maxlevel : Int))) ∧
    AclWF (get_acllevel m ip).2 ∧
    (get_acllevel (get_acllevel m ip).2 ip).1 = (get_acllevel m ip).1 := by
  cases hmemo : alookup ip m.dict_knownips with
  | some lv =>
    have hres : get_acllevel m ip = (lv, m) := by
      simp [get_acllevel, hmemo]
    rw [hres]
    exact ⟨Or.inr (hWF.2 (ip, lv) (alookup_mem hmemo)), hWF, by simp [get_acllevel, hmemo]⟩
  | none =>
    cases hfind : findAclMatch m.dict_acl ip (sortDesc (m.dict_acl.map Prod.fst)) with
    | some lv =>
      have hres : get_acllevel m ip
          = (lv, { m with dict_knownips := m.dict_knownips ++ [(ip, lv)] }) := by
        simp [get_acllevel, hmemo, hfind]
      obtain ⟨k, hk⟩ := findAclMatch_mem hfind
      have hrange := hWF.1 (k, lv) hk
      rw [hres]
      refine ⟨Or.inr hrange, ⟨hWF.1, ?_⟩, ?_⟩
      · intro e he
        rcases List.mem_append.mp he with h1 | h2
        · exact hWF.2 e h1
        · rcases List.mem_singleton.mp h2 with rfl
          exact hrange
      · have hmemo2 : alookup ip (m.dict_knownips ++ [(ip, lv)]) = some lv := by
          rw [alookup_append_none hmemo]
          simp [alookup]
        simp [get_acllevel, hmemo2]
    | none =>
      have hres : get_acllevel m ip = (-1, m) := by
        simp [get_acllevel, hmemo, hfind]
      rw [hres]
      exact ⟨Or.inl rfl, hWF, by simp [get_acllevel, hmemo, hfind]⟩

/-- C5.  After a successful load, every lookup returns -1 or a level inside
the configured bounds, and two successive lookups of the same IP with no
mutating call in between return the same value (via the memo when the first
lookup matched, by determinism otherwise). -/
theorem c5_acllevel_range_and_stability (m0 : IpAclManager) (v : String)
    (m : IpAclManager) (ip : String) (hload : set_acl m0 v = some m) :
    ((get_acllevel m ip).1 = -1 ∨
      ((m.minlevel : Int) ≤ (get_acllevel m ip).1 ∧
        (get_acllevel m ip).1 ≤ (m.maxlevel : Int))) ∧
    (get_acllevel (get_acllevel m ip).2 ip).1 = (get_acllevel m ip).1 := by
  obtain ⟨-, -, hmemo, hlevels⟩ := set_acl_bounds hload
  have hWF : AclWF m := by
    refine ⟨hlevels, ?_⟩
    rw [hmemo]
    intro e he
    simp at he
  obtain ⟨h1, -, h3⟩ := get_acllevel_range_stable m hWF ip
  exact ⟨h1, h3⟩

/-- Witness for C5: a concrete two-entry ACL load and a lookup of a wildcard
client address. -/
theorem c5_witness :
    ((get_acllevel ⟨0, 1, [("192.168.0.1", 1), ("10.0.0.*", 0)], []⟩ "10.0.0.7").1 = -1 ∨
      (((⟨0, 1, [("192.168.0.1", 1), ("10.0.0.*", 0)], []⟩ : IpAclManager).minlevel : Int) ≤
          (get_acllevel ⟨0, 1, [("192.168.0.1", 1), ("10.0.0.*", 0)], []⟩ "10.0.0.7").1 ∧
        (get_acllevel ⟨0, 1, [("192.168.0.1", 1), ("10.0.0.*", 0)], []⟩ "10.0.0.7").1 ≤
          ((⟨0, 1, [("192.168.0.1", 1), ("10.0.0.*", 0)], []⟩ : IpAclManager).maxlevel : Int))) ∧
    (get_acllevel
        (get_acllevel ⟨0, 1, [("192.168.0.1", 1), ("10.0.0.*", 0)], []⟩ "10.0.0.7").2
        "10.0.0.7").1
      = (get_acllevel ⟨0, 1, [("192.168.0.1", 1), ("10.0.0.*", 0)], []⟩ "10.0.0.7").1 :=
  c5_acllevel_range_and_stability ⟨0, 1, [], []⟩ "192.168.0.1,1 10.0.0.*,0"
    ⟨0, 1, [("192.168.0.1", 1), ("10.0.0.*", 0)], []⟩ "10.0.0.7"
    (by simp [set_acl, aclOk, parseEntry, pseq, parseOctet, expectChar, parseLevel,
      isAclChar, stripChars, isPyWs, pySplit, takeTok, pySplitComma1, pyInt,
      digitsToNat, parseAclEntries, dictInsertStr, String.toList])

/-- Witness for C10 at a freshly constructed watchdog. -/
theorem c10_witness :
    (rdwTriggered (rdwIoctlEvent initRDWatchdog)).1 = true ∧
    (rdwTriggered initRDWatchdog).2.triggeredFlag = false ∧
    (rdwTriggered (rdwTriggered initRDWatchdog).2).1 = false ∧
    ((rdwTriggered initRDWatchdog).1 = true →
      (rdwTriggered (rdwTriggered initRDWatchdog).2).1 = false) :=
  c10_triggered_consumes_edge initRDWatchdog
